import Mathlib

set_option linter.unusedVariables false
set_option maxRecDepth 4000

/- Verification of the data-genie backend (app.py / llm_utils.py).

   The development shallowly embeds the pipeline-extraction procedure of the
   /api/process_pipeline_llm handler (app.py lines 113-173), the pipeline
   preparation of /api/sample_docs (app.py lines 38-61), the upsert semantics
   of /api/save_config (app.py lines 79-92) and the /api/validate_script
   handler (app.py lines 27-34).

   Strings are modelled as Lean String / List Char.  Python's json module is
   modelled by an executable recursive-descent parser (jsonParse) and a
   json.dumps-style serializer (serJson); Python's re.sub fence stripping is
   modelled by an executable matcher specialised to the one pattern the code
   uses.  External effects (the LLM call, MongoDB, CPython's compile builtin)
   enter as explicit inputs. -/

/- ===================== JSON values =====================

   The Python json module's data model: None, bool, int/float, str, list,
   dict.  Numbers are modelled exactly as mantissa * 10 ^ exp10 (an int parses
   with exp10 = 0); Python's int/float distinction, NaN/Infinity extensions
   and float rounding are not modelled - no claim depends on numeric
   representation.  Dicts are insertion-ordered association lists with unique
   keys, as produced by Python dict insertion. -/

inductive Json where
  | null
  | bool (b : Bool)
  | num (mantissa : Int) (exp10 : Int)
  | str (s : String)
  | arr (elems : List Json)
  | obj (members : List (String × Json))

/- ===================== Character classes =====================

   isPyWs: the whitespace recognised by Python's str.strip() and by the \s
   class of the fence-stripping regex, restricted to the ASCII whitespace that
   can actually occur in this code path (Python additionally treats a few
   exotic unicode characters as whitespace; they are irrelevant here).
   isJsonWs: the whitespace of the JSON grammar as used by Python's
   json.decoder (exactly space, tab, newline, carriage return). -/

def isPyWs (c : Char) : Bool :=
  c = ' ' || c = '\t' || c = '\n' || c = '\r' || c = '\x0b' || c = '\x0c'

def isJsonWs (c : Char) : Bool :=
  c = ' ' || c = '\t' || c = '\n' || c = '\r'

/-- Python str.strip(): drop leading and trailing whitespace (app.py line 128
and line 131's trailing .strip()). -/
def pyStrip (l : List Char) : List Char :=
  ((l.dropWhile isPyWs).reverse.dropWhile isPyWs).reverse

def pyStripStr (s : String) : String := ⟨pyStrip s.data⟩

/- ===================== Fence stripping =====================

   app.py line 131:
     re.sub(r"^\s*```(?:json)?\s*|\s*```\s*$", "", llm_response,
            flags=re.I | re.M)
   modelled as an executable scan with Python re semantics: leftmost
   non-overlapping matches, first alternative preferred, greedy repetition,
   multiline anchors (^ at start of string or after a newline of the original
   string, $ at end of string or before a newline).  Since no whitespace
   character is a backtick, the greedy \s* before a ``` never backtracks; the
   trailing \s*$ of the second alternative backtracks to the last newline
   inside the whitespace run.  Case-insensitivity of the (?:json)? group is
   ASCII case folding. -/

/-- Consume an optional case-insensitive "json" tag (the (?:json)? group). -/
def stripJsonTag (l : List Char) : List Char :=
  match l with
  | c1 :: r1 =>
    if c1.toLower = 'j' then
      match r1 with
      | c2 :: r2 =>
        if c2.toLower = 's' then
          match r2 with
          | c3 :: r3 =>
            if c3.toLower = 'o' then
              match r3 with
              | c4 :: r4 => if c4.toLower = 'n' then r4 else l
              | _ => l
            else l
          | _ => l
        else l
      | _ => l
    else l
  | _ => l

/-- Consume a literal ``` fence marker, if present. -/
def isTicks3 (l : List Char) : Option (List Char) :=
  match l with
  | c1 :: r1 =>
    if c1 = '\x60' then
      match r1 with
      | c2 :: r2 =>
        if c2 = '\x60' then
          match r2 with
          | c3 :: r3 => if c3 = '\x60' then some r3 else none
          | _ => none
        else none
      | _ => none
    else none
  | _ => none

/-- First alternative of the fence regex: ^\s*```(?:json)?\s* .  Returns the
remainder after the match together with "the character just before the
remainder is a newline" (needed to evaluate later ^ anchors).  lineStart is
the ^ anchor at the match position. -/
def matchAlt1 (lineStart : Bool) (l : List Char) : Option (Bool × List Char) :=
  if lineStart then
    match isTicks3 (l.dropWhile isPyWs) with
    | some r2 =>
      let r3 := stripJsonTag r2
      some ((r3.takeWhile isPyWs).getLast? == some '\n', r3.dropWhile isPyWs)
    | none => none
  else none

/-- Split a char list just before its last newline (the backtracking of a
greedy \s* followed by a multiline $ inside a run of whitespace). -/
def splitLastNl : List Char → Option (List Char × List Char)
  | [] => none
  | c :: rest =>
    match splitLastNl rest with
    | some (p, s) => some (c :: p, s)
    | none => if c = '\n' then some ([], c :: rest) else none

/-- Second alternative of the fence regex: \s*```\s*$ . -/
def matchAlt2 (l : List Char) : Option (Bool × List Char) :=
  match isTicks3 (l.dropWhile isPyWs) with
  | some r2 =>
    let ws2 := r2.takeWhile isPyWs
    let r3 := r2.dropWhile isPyWs
    if r3.isEmpty then some (false, [])
    else
      match splitLastNl ws2 with
      | some ps => some (ps.1.getLast? == some '\n', ps.2 ++ r3)
      | none => none
  | none => none

/-- The re.sub scan: at each position try alternative 1 then alternative 2;
on a match drop the matched span (the replacement is empty) and continue
after it, otherwise keep the character.  Each step consumes at least one
character, so fuel length + 1 never runs out. -/
def fenceSubAux : Nat → Bool → List Char → List Char
  | 0, _, l => l
  | f + 1, ls, l =>
    match l with
    | [] => []
    | c :: rest =>
      match matchAlt1 ls (c :: rest) with
      | some (nl, rem) => fenceSubAux f nl rem
      | none =>
        match matchAlt2 (c :: rest) with
        | some (nl, rem) => fenceSubAux f nl rem
        | none => c :: fenceSubAux f (c == '\n') rest

def fenceSub (l : List Char) : List Char := fenceSubAux (l.length + 1) true l

/- ===================== JSON parsing (json.loads) =====================

   A faithful executable model of Python json.loads on str input with default
   options: whitespace per isJsonWs, the number grammar of json's NUMBER_RE
   (leading-zero rule, atomic optional fraction and exponent), strict strings
   (unescaped control characters rejected), the standard escapes, \uXXXX with
   surrogate-pair combination, objects built by dict insertion order with
   last-wins duplicate keys, and an extra-data check after the top value.
   Divergences, none of which matter for the claims: the NaN/Infinity
   extensions are not modelled (they would parse to floats); a lone surrogate
   escape becomes U+FFFD because Lean's Char cannot hold it (Python keeps the
   lone surrogate); fuel exhaustion on absurdly deep nesting mirrors Python's
   RecursionError, which the handler catches like any parse failure. -/

def skipWs (l : List Char) : List Char := l.dropWhile isJsonWs

def hexDigitVal (c : Char) : Option Nat :=
  if '0' ≤ c ∧ c ≤ '9' then some (c.toNat - 48)
  else if 'a' ≤ c ∧ c ≤ 'f' then some (c.toNat - 87)
  else if 'A' ≤ c ∧ c ≤ 'F' then some (c.toNat - 55)
  else none

def hex4 (a b c d : Char) : Option Nat :=
  match hexDigitVal a, hexDigitVal b, hexDigitVal c, hexDigitVal d with
  | some x, some y, some z, some w => some (((x * 16 + y) * 16 + z) * 16 + w)
  | _, _, _, _ => none

def escCharOf (e : Char) : Option Char :=
  match e with
  | '"' => some '"'
  | '\\' => some '\\'
  | '/' => some '/'
  | 'b' => some '\x08'
  | 'f' => some '\x0c'
  | 'n' => some '\n'
  | 'r' => some '\r'
  | 't' => some '\t'
  | _ => none

/-- Scan a JSON string body (after the opening quote), returning its
characters and the remainder after the closing quote. -/
def parseStrF : Nat → List Char → Option (List Char × List Char)
  | 0, _ => none
  | f + 1, l =>
    match l with
    | [] => none
    | c :: r =>
      if c = '"' then some ([], r)
      else if c = '\\' then
        match r with
        | [] => none
        | e :: r1 =>
          if e = 'u' then
            match r1 with
            | a :: b :: cc :: d :: r2 =>
              (match hex4 a b cc d with
               | none => none
               | some n =>
                 if 0xD800 ≤ n ∧ n ≤ 0xDBFF then
                   match r2 with
                   | '\\' :: 'u' :: a2 :: b2 :: c2 :: d2 :: r3 =>
                     (match hex4 a2 b2 c2 d2 with
                      | some m =>
                        if 0xDC00 ≤ m ∧ m ≤ 0xDFFF then
                          match parseStrF f r3 with
                          | some (cs, rest) =>
                            some (Char.ofNat (0x10000 + (n - 0xD800) * 0x400 + (m - 0xDC00)) :: cs, rest)
                          | none => none
                        else
                          match parseStrF f r2 with
                          | some (cs, rest) => some ('�' :: cs, rest)
                          | none => none
                      | none =>
                        match parseStrF f r2 with
                        | some (cs, rest) => some ('�' :: cs, rest)
                        | none => none)
                   | _ =>
                     match parseStrF f r2 with
                     | some (cs, rest) => some ('�' :: cs, rest)
                     | none => none
                 else if 0xDC00 ≤ n ∧ n ≤ 0xDFFF then
                   match parseStrF f r2 with
                   | some (cs, rest) => some ('�' :: cs, rest)
                   | none => none
                 else
                   match parseStrF f r2 with
                   | some (cs, rest) => some (Char.ofNat n :: cs, rest)
                   | none => none)
            | _ => none
          else
            match escCharOf e with
            | some ec =>
              (match parseStrF f r1 with
               | some (cs, rest) => some (ec :: cs, rest)
               | none => none)
            | none => none
      else if c.toNat < 0x20 then none
      else
        match parseStrF f r with
        | some (cs, rest) => some (c :: cs, rest)
        | none => none

def parseDigits (l : List Char) : List Char × List Char :=
  (l.takeWhile Char.isDigit, l.dropWhile Char.isDigit)

def digitsToNat (ds : List Char) : Nat := ds.foldl (fun a c => a * 10 + (c.toNat - 48)) 0

def numSign : List Char → Int × List Char
  | [] => (1, [])
  | c :: r => if c = '-' then (-1, r) else (1, c :: r)

/-- The integer part 0|[1-9][0-9]* of json's NUMBER_RE: a leading zero stops
the integer part immediately. -/
def parseIntPart : List Char → Option (Nat × List Char)
  | [] => none
  | c :: r =>
    if c = '0' then some (0, r)
    else
      match parseDigits (c :: r) with
      | (ds, rr) => if ds.isEmpty then none else some (digitsToNat ds, rr)

/-- The atomic fraction group (\.\d+)? . -/
def parseFrac : List Char → List Char × List Char
  | [] => ([], [])
  | c :: rf =>
    if c = '.' then
      match parseDigits rf with
      | (ds, rr) => if ds.isEmpty then ([], c :: rf) else (ds, rr)
    else ([], c :: rf)

def expSign : List Char → Int × List Char
  | [] => (1, [])
  | c :: rr => if c = '+' then (1, rr) else if c = '-' then (-1, rr) else (1, c :: rr)

/-- The atomic exponent group ([eE][-+]?\d+)? . -/
def parseExp : List Char → Int × List Char
  | [] => (0, [])
  | e :: rest =>
    if e = 'e' ∨ e = 'E' then
      let sr := expSign rest
      match parseDigits sr.2 with
      | (ds, rr2) => if ds.isEmpty then (0, e :: rest) else (sr.1 * digitsToNat ds, rr2)
    else (0, e :: rest)

/-- Numbers per json's NUMBER_RE -?(0|[1-9]\d+)(\.\d+)?([eE][-+]?\d+)?
with the fraction and exponent groups atomic: a bare '.' or 'e' without
digits is left unconsumed exactly as the regex leaves it. -/
def parseNumber (l : List Char) : Option (Json × List Char) :=
  let sl := numSign l
  match parseIntPart sl.2 with
  | none => none
  | some (ip, r1) =>
    let fr := parseFrac r1
    let ex := parseExp fr.2
    some (.num (sl.1 * (ip * 10 ^ fr.1.length + digitsToNat fr.1)) (ex.1 - fr.1.length), ex.2)

/-- Python dict insertion: an existing key keeps its position and takes the
new value, a new key is appended. -/
def insertKV : List (String × Json) → String → Json → List (String × Json)
  | [], k, v => [(k, v)]
  | (k', v') :: rest, k, v =>
    if k' = k then (k', v) :: rest else (k', v') :: insertKV rest k v

def dictify (ms : List (String × Json)) : List (String × Json) :=
  ms.foldl (fun acc kv => insertKV acc kv.1 kv.2) []

mutual

/-- json's scan_once: dispatch on the first character (whitespace already
skipped by the caller). -/
def parseVal : Nat → List Char → Option (Json × List Char)
  | 0, _ => none
  | f + 1, l =>
    match l with
    | [] => none
    | c :: r =>
      if c = '"' then
        match parseStrF (r.length + 1) r with
        | some (cs, rest) => some (.str ⟨cs⟩, rest)
        | none => none
      else if c = '\x7b' then
        match parseObjF f (skipWs r) with
        | some (ms, rest) => some (.obj (dictify ms), rest)
        | none => none
      else if c = '[' then
        match parseArrF f (skipWs r) with
        | some (es, rest) => some (.arr es, rest)
        | none => none
      else if c = 't' then
        match r with
        | 'r' :: 'u' :: 'e' :: r2 => some (.bool true, r2)
        | _ => none
      else if c = 'f' then
        match r with
        | 'a' :: 'l' :: 's' :: 'e' :: r2 => some (.bool false, r2)
        | _ => none
      else if c = 'n' then
        match r with
        | 'u' :: 'l' :: 'l' :: r2 => some (.null, r2)
        | _ => none
      else if c = '-' ∨ c.isDigit then parseNumber (c :: r)
      else none

/-- JSONArray after the opening bracket and whitespace: empty array or the
element loop. -/
def parseArrF : Nat → List Char → Option (List Json × List Char)
  | 0, _ => none
  | f + 1, l =>
    match l with
    | [] => parseArrLoopF f []
    | c :: r => if c = ']' then some ([], r) else parseArrLoopF f (c :: r)

/-- One element then either the closing bracket or a comma and the next
element (a trailing comma fails because an element is then required). -/
def parseArrLoopF : Nat → List Char → Option (List Json × List Char)
  | 0, _ => none
  | f + 1, l =>
    match parseVal f l with
    | none => none
    | some (v, r1) =>
      match skipWs r1 with
      | ']' :: r2 => some ([v], r2)
      | ',' :: r2 =>
        (match parseArrLoopF f (skipWs r2) with
         | some (vs, r3) => some (v :: vs, r3)
         | none => none)
      | _ => none

/-- JSONObject after the opening brace and whitespace. -/
def parseObjF : Nat → List Char → Option (List (String × Json) × List Char)
  | 0, _ => none
  | f + 1, l =>
    match l with
    | '\x7d' :: r => some ([], r)
    | _ => parseObjLoopF f l

/-- One "key": value member then either the closing brace or a comma and the
next member. -/
def parseObjLoopF : Nat → List Char → Option (List (String × Json) × List Char)
  | 0, _ => none
  | f + 1, l =>
    match l with
    | '"' :: r =>
      (match parseStrF (r.length + 1) r with
       | none => none
       | some (kcs, r1) =>
         match skipWs r1 with
         | ':' :: r2 =>
           (match parseVal f (skipWs r2) with
            | none => none
            | some (v, r3) =>
              match skipWs r3 with
              | '\x7d' :: r4 => some ([(⟨kcs⟩, v)], r4)
              | ',' :: r4 =>
                (match parseObjLoopF f (skipWs r4) with
                 | some (ms, r5) => some ((⟨kcs⟩, v) :: ms, r5)
                 | none => none)
              | _ => none)
         | _ => none)
    | _ => none

end

/-- json.loads: skip leading whitespace, scan one value, require only
whitespace to the end.  The fuel 4 * length + 4 covers the worst case of
three nested calls per consumed character. -/
def jsonParse (l : List Char) : Option Json :=
  match parseVal (4 * l.length + 4) (skipWs l) with
  | some (v, rest) => if (skipWs rest).isEmpty then some v else none
  | none => none

/- ===================== Pipeline extraction =====================

   app.py lines 128-170.  The normalized text is
   re.sub(fences, "", raw.strip()).strip(); step 2 tries the whole text and
   keeps the value only if it is a list (otherwise it falls through, also on
   a parse error); step 3 slices from the first '[' to the last ']'
   inclusive; step 4 fails with the no-array message.  Failure payloads carry
   llm_response, i.e. the stripped (not fence-cleaned) generator text. -/

def cleanData (raw : String) : List Char := pyStrip (fenceSub (pyStrip raw.data))

def tryParseArray (l : List Char) : Option (List Json) :=
  match jsonParse l with
  | some (Json.arr es) => some es
  | _ => none

/-- Python str.find: index of the first occurrence or -1. -/
def firstIdx (c : Char) : List Char → Option Nat
  | [] => none
  | x :: xs => if x = c then some 0 else (firstIdx c xs).map (· + 1)

def lastIdxAux (c : Char) : List Char → Nat → Option Nat → Option Nat
  | [], _, acc => acc
  | x :: xs, i, acc => lastIdxAux c xs (i + 1) (if x = c then some i else acc)

/-- Python str.rfind: index of the last occurrence or -1. -/
def lastIdx (c : Char) (l : List Char) : Option Nat := lastIdxAux c l 0 none

def pyFind (l : List Char) (c : Char) : Int :=
  match firstIdx c l with
  | some n => (n : Int)
  | none => -1

def pyRFind (l : List Char) (c : Char) : Int :=
  match lastIdx c l with
  | some n => (n : Int)
  | none => -1

/-- Python slicing l[a:b] for the nonnegative indices produced here. -/
def pySlice (l : List Char) (a b : Int) : List Char := (l.take b.toNat).drop a.toNat

/-- app.py lines 143-146: the slice from the first '[' to the last ']'
inclusive, under the guard start != -1 and end != -1 and end > start. -/
def bracketSlice (clean : List Char) : Option (List Char) :=
  let s := pyFind clean '['
  let e := pyRFind clean ']'
  if s ≠ -1 ∧ e ≠ -1 ∧ e > s then some (pySlice clean s (e + 1)) else none

/-- The four outcomes of the extraction procedure: the parsed pipeline, or
the three failure kinds of app.py lines 151-170 ("not-an-array",
"decode-error", "no-array-found") with their diagnostic payloads. -/
inductive ExtractResult where
  | ok (pipeline : List Json)
  | notAnArray (llmError : String) (rawPipeline : String)
  | decodeError (llmError : String) (rawPipeline : String)
  | noArrayFound (llmError : String)

def extractCore (clean : List Char) (llmResponse : String) : ExtractResult :=
  match tryParseArray clean with
  | some es => .ok es
  | none =>
    match bracketSlice clean with
    | some arrayStr =>
      (match jsonParse arrayStr with
       | some (Json.arr es) => .ok es
       | some _ => .notAnArray llmResponse ⟨arrayStr⟩
       | none => .decodeError llmResponse ⟨arrayStr⟩)
    | none => .noArrayFound llmResponse

/-- The extraction procedure on the raw generator response (app.py lines
128-170). -/
def extractPipeline (raw : String) : ExtractResult :=
  extractCore (cleanData raw) (pyStripStr raw)

def isNotAnArrayR : ExtractResult → Bool
  | .notAnArray _ _ => true
  | _ => false

/-- The HTTP response of /api/process_pipeline_llm as (status, JSON body
fields in dict order).  The llm call either fails (the except branch at line
172, status 500) or yields the raw response text.  The decode-error message
embeds Python's exception text, abstracted here to its fixed prefix. -/
def processPipelineLlm (llmOutcome : Except String String) : Nat × List (String × Json) :=
  match llmOutcome with
  | .error e => (500, [("error", .str e), ("pipeline", .null)])
  | .ok raw =>
    match extractPipeline raw with
    | .ok es => (200, [("pipeline", .arr es)])
    | .notAnArray llmErr rawp =>
      (400, [("error", .str "Parsed JSON is not an array"),
             ("llm_error", .str llmErr),
             ("raw_pipeline", .str rawp)])
    | .decodeError llmErr rawp =>
      (400, [("error", .str "JSON decode error"),
             ("llm_error", .str llmErr),
             ("pipeline", .null),
             ("raw_pipeline", .str rawp)])
    | .noArrayFound llmErr =>
      (400, [("error", .str "No pipeline array found in LLM response"),
             ("llm_error", .str llmErr),
             ("pipeline", .null)])

/- ===================== sample_docs pipeline preparation =====================

   app.py lines 43-55: coerce a non-list pipeline to [], then append a
   $limit stage unless some top-level dict stage already has the key. -/

def stageHasLimitKey : Json → Bool
  | .obj ms => ms.any (fun kv => kv.1 == "$limit")
  | _ => false

def sampleDocsPipeline (pipeline : Json) (limit : Json) : List Json :=
  let p : List Json := match pipeline with | .arr es => es | _ => []
  if p.any stageHasLimitKey then p else p ++ [Json.obj [("$limit", limit)]]

/- ===================== save_config upsert =====================

   app.py line 89: coll.update_one({'name': name}, {'$set': {'config':
   config}}, upsert=True) against the projects collection, modelled as a list
   of (name, config) documents: update_one replaces the config of the first
   matching document, upsert appends when none matches. -/

def replaceFirstConfig : List (String × Json) → String → Json → List (String × Json)
  | [], _, _ => []
  | (k, v) :: rest, name, config =>
    if k = name then (k, config) :: rest else (k, v) :: replaceFirstConfig rest name config

def updateOneUpsert (store : List (String × Json)) (name : String) (config : Json) :
    List (String × Json) :=
  if store.any (fun kv => kv.1 == name) then replaceFirstConfig store name config
  else store ++ [(name, config)]

def countName (store : List (String × Json)) (name : String) : Nat :=
  (store.filter (fun kv => kv.1 == name)).length

def findConfig (store : List (String × Json)) (name : String) : Option Json :=
  (store.find? (fun kv => kv.1 == name)).map (fun kv => kv.2)

/- ===================== validate_script =====================

   app.py lines 27-34.  request.json.get('script', '') defaults an absent
   key to ''; CPython's compile builtin is an external input here (it raises
   TypeError when handed a non-string, which the handler's except turns into
   a valid: false response). -/

def dictGet (body : List (String × Json)) (key : String) (dflt : Json) : Json :=
  match body.find? (fun kv => kv.1 == key) with
  | some kv => kv.2
  | none => dflt

def validateScript (body : List (String × Json)) (compileExec : String → Except String Unit) :
    List (String × Json) :=
  match dictGet body "script" (Json.str "") with
  | Json.str s =>
    (match compileExec s with
     | Except.ok _ => [("valid", Json.bool true)]
     | Except.error e => [("valid", Json.bool false), ("error", Json.str e)])
  | _ => [("valid", Json.bool false), ("error", Json.str "TypeError")]

/- ===================== JSON serialization (json.dumps) =====================

   A json.dumps-style serializer with default separators (", " and ": ") and
   ensure_ascii escaping: raw output is printable ASCII, everything outside
   0x20-0x7e is \uXXXX-escaped (astral characters as a surrogate pair).
   Numbers print as mantissa followed, when the exponent is nonzero, by an
   'e' exponent - a valid JSON spelling of the modelled value. -/

def digitChar (n : Nat) : Char := "0123456789".data.getD (n % 10) '0'

def hexChar (n : Nat) : Char := "0123456789abcdef".data.getD (n % 16) '0'

def natCharsF : Nat → Nat → List Char
  | 0, _ => []
  | f + 1, n => if n < 10 then [digitChar n] else natCharsF f (n / 10) ++ [digitChar (n % 10)]

def intChars (i : Int) : List Char :=
  if i < 0 then '-' :: natCharsF (i.natAbs + 1) i.natAbs
  else natCharsF (i.natAbs + 1) i.natAbs

def serNum (m e : Int) : List Char :=
  if e = 0 then intChars m else intChars m ++ 'e' :: intChars e

def uEscape (n : Nat) : List Char :=
  ['\\', 'u', hexChar (n / 4096), hexChar (n / 256), hexChar (n / 16), hexChar n]

/-- The ensure_ascii escaping of one character: the named escapes, raw
printable ASCII, \uXXXX otherwise (surrogate pairs above 0xFFFF). -/
def escapeChar (c : Char) : List Char :=
  if c = '\\' then ['\\', '\\']
  else if c = '"' then ['\\', '"']
  else if c = '\x08' then ['\\', 'b']
  else if c = '\x0c' then ['\\', 'f']
  else if c = '\n' then ['\\', 'n']
  else if c = '\r' then ['\\', 'r']
  else if c = '\t' then ['\\', 't']
  else if 0x20 ≤ c.toNat ∧ c.toNat ≤ 0x7e then [c]
  else if c.toNat < 0x10000 then uEscape c.toNat
  else uEscape (0xD800 + (c.toNat - 0x10000) / 0x400) ++ uEscape (0xDC00 + (c.toNat - 0x10000) % 0x400)

def escChars : List Char → List Char
  | [] => []
  | c :: r => escapeChar c ++ escChars r

def serStr (s : String) : List Char := '"' :: escChars s.data ++ ['"']

mutual

def serJson : Json → List Char
  | .null => "null".data
  | .bool true => "true".data
  | .bool false => "false".data
  | .num m e => serNum m e
  | .str s => serStr s
  | .arr es => '[' :: (serList es ++ [']'])
  | .obj ms => '\x7b' :: (serMembers ms ++ ['\x7d'])

def serList : List Json → List Char
  | [] => []
  | [j] => serJson j
  | j :: rest => serJson j ++ ',' :: ' ' :: serList rest

def serMembers : List (String × Json) → List Char
  | [] => []
  | [(k, v)] => serStr k ++ ':' :: ' ' :: serJson v
  | (k, v) :: rest => (serStr k ++ ':' :: ' ' :: serJson v) ++ ',' :: ' ' :: serMembers rest

end

def serString (j : Json) : String := ⟨serJson j⟩

/-- A generator response wrapping a payload in a fenced code block, with an
optional language tag on the opening fence. -/
def fencedWrap (tag : String) (s : String) : String :=
  "```" ++ tag ++ "\n" ++ s ++ "\n```"

/- ===================== Helper lemmas ===================== -/

theorem parseVal_bracket_shape (f : Nat) (t : List Char) (v : Json) (r : List Char)
    (h : parseVal f ('[' :: t) = some (v, r)) : ∃ es, v = Json.arr es := by
  match f with
  | 0 => exact absurd h (by simp [parseVal])
  | f + 1 =>
    have hd : parseVal (f + 1) ('[' :: t) =
        (match parseArrF f (skipWs t) with
         | some (es, rest) => some (Json.arr es, rest)
         | none => none) := rfl
    rw [hd] at h
    rcases hp : parseArrF f (skipWs t) with _ | ⟨es, rest⟩ <;> rw [hp] at h
    · exact absurd h (by simp)
    · simp only [Option.some.injEq, Prod.mk.injEq] at h
      exact ⟨es, h.1.symm⟩

theorem jsonParse_bracket_shape (t : List Char) (v : Json)
    (h : jsonParse ('[' :: t) = some v) : ∃ es, v = Json.arr es := by
  unfold jsonParse at h
  have hs : skipWs ('[' :: t) = '[' :: t := rfl
  rw [hs] at h
  rcases hp : parseVal (4 * ('[' :: t).length + 4) ('[' :: t) with _ | ⟨v', rest⟩ <;>
    rw [hp] at h
  · exact absurd h (by simp)
  · obtain ⟨es, rfl⟩ := parseVal_bracket_shape _ _ _ _ hp
    by_cases hr : (skipWs rest).isEmpty <;> simp [hr] at h
    exact ⟨es, h.symm⟩

theorem firstIdx_spec (c : Char) (l : List Char) (n : Nat) (h : firstIdx c l = some n) :
    n < l.length ∧ l.get? n = some c := by
  induction l generalizing n with
  | nil => simp [firstIdx] at h
  | cons x xs ih =>
    by_cases hx : x = c
    · subst hx
      simp [firstIdx] at h
      subst h
      simp
    · simp [firstIdx, hx] at h
      rcases h with ⟨m, hm, hn⟩
      obtain ⟨h1, h2⟩ := ih _ hm
      subst hn
      constructor
      · simpa using h1
      · simpa using h2

theorem bracketSlice_head (clean : List Char) (s : List Char)
    (h : bracketSlice clean = some s) : ∃ t, s = '[' :: t := by
  simp only [bracketSlice] at h
  rcases hf : firstIdx '[' clean with _ | n <;>
    rcases hl : lastIdx ']' clean with _ | m <;>
    simp only [pyFind, pyRFind, hf, hl] at h
  · exact absurd h (by simp)
  · exact absurd h (by simp)
  · exact absurd h (by simp)
  · split at h
    case isFalse => exact absurd h (by simp)
    case isTrue hcond =>
      have hgt : (n : Int) < (m : Int) := hcond.2.2
      have hnm : n < m + 1 := by
        have h' : n < m := by exact_mod_cast hgt
        omega
      obtain ⟨hlen, hget⟩ := firstIdx_spec '[' clean n hf
      have hslice : s = (clean.take ((m : Int) + 1).toNat).drop ((n : Int)).toNat :=
        (Option.some_inj.mp h).symm
      have htn : ((n : Int)).toNat = n := rfl
      have htm : ((m : Int) + 1).toNat = m + 1 := rfl
      rw [htn, htm] at hslice
      have hhead : s.head? = some '[' := by
        rw [hslice, List.head?_drop, List.getElem?_take, if_pos hnm, ← List.get?_eq_getElem?]
        exact hget
      rcases s with _ | ⟨a, t⟩
      · exact absurd hhead (by simp)
      · refine ⟨t, ?_⟩
        have : a = '[' := by simpa using hhead
        rw [this]

/-- Shared fact behind C6 and C9: the extraction core never produces the
not-an-array outcome, because the bracket slice begins with the first '[' and
JSON text beginning with '[' can only parse to an array. -/
theorem extractCore_no_notAnArray (clean : List Char) (llmResponse : String) :
    isNotAnArrayR (extractCore clean llmResponse) = false := by
  unfold extractCore
  rcases h1 : tryParseArray clean with _ | es
  · rcases h2 : bracketSlice clean with _ | s
    · simp [isNotAnArrayR]
    · obtain ⟨t, rfl⟩ := bracketSlice_head _ _ h2
      rcases h3 : jsonParse ('[' :: t) with _ | v
      · simp [h3, isNotAnArrayR]
      · obtain ⟨es, rfl⟩ := jsonParse_bracket_shape _ _ h3
        simp [h3, isNotAnArrayR]
  · simp [isNotAnArrayR]

/- ===================== Claim theorems ===================== -/

/-- C1: a generator response whose normalized text (whitespace stripped, code
fences removed) parses as a JSON array is accepted by the direct-parse step,
and the extraction returns exactly that array as the pipeline. -/
theorem direct_parse_returns_array (raw : String) (es : List Json)
    (h : tryParseArray (cleanData raw) = some es) :
    extractPipeline raw = ExtractResult.ok es := by
  simp only [extractPipeline, extractCore, h]

theorem direct_parse_returns_array_witness :
    tryParseArray (cleanData "[\x7b\"$limit\": 5\x7d]") = some [Json.obj [("$limit", Json.num 5 0)]] ∧
    extractPipeline "[\x7b\"$limit\": 5\x7d]" = ExtractResult.ok [Json.obj [("$limit", Json.num 5 0)]] :=
  ⟨rfl, direct_parse_returns_array _ _ rfl⟩

/-- C3: when the normalized text does not directly parse as an array but the
slice from the first '[' to the last ']' (inclusive) parses as a JSON array,
bracket recovery succeeds and extraction returns exactly that array.  The
concrete prose scenario of the specification is the witness below. -/
theorem bracket_recovery_returns_array (raw : String) (s : List Char) (es : List Json)
    (h1 : tryParseArray (cleanData raw) = none)
    (h2 : bracketSlice (cleanData raw) = some s)
    (h3 : jsonParse s = some (Json.arr es)) :
    extractPipeline raw = ExtractResult.ok es := by
  simp only [extractPipeline, extractCore, h1, h2, h3]

theorem bracket_recovery_returns_array_witness :
    (tryParseArray (cleanData "Sure! Here is the pipeline: [\x7b\"$limit\": 5\x7d] Hope that helps!") = none ∧
     bracketSlice (cleanData "Sure! Here is the pipeline: [\x7b\"$limit\": 5\x7d] Hope that helps!") =
       some "[\x7b\"$limit\": 5\x7d]".data ∧
     jsonParse "[\x7b\"$limit\": 5\x7d]".data = some (Json.arr [Json.obj [("$limit", Json.num 5 0)]])) ∧
    extractPipeline "Sure! Here is the pipeline: [\x7b\"$limit\": 5\x7d] Hope that helps!" =
      ExtractResult.ok [Json.obj [("$limit", Json.num 5 0)]] :=
  ⟨⟨rfl, rfl, rfl⟩, bracket_recovery_returns_array _ _ _ rfl rfl rfl⟩

/-- C4 counterexample: the no-array-found failure payload is the
whitespace-stripped generator text, not the raw generator text: a response
with surrounding whitespace comes back stripped in llm_error. -/
theorem no_array_found_payload_counterexample :
    extractPipeline "  no brackets here  " = ExtractResult.noArrayFound "no brackets here" ∧
    ("no brackets here" : String) ≠ "  no brackets here  " :=
  ⟨rfl, by decide⟩

/-- C4 (amended): when the normalized text neither parses directly as an
array nor contains a valid bracketed span, extraction fails with kind
no-array-found, and the failure payload carries the whitespace-stripped
generator text. -/
theorem no_array_found_on_missing_brackets (raw : String)
    (h1 : tryParseArray (cleanData raw) = none)
    (h2 : bracketSlice (cleanData raw) = none) :
    extractPipeline raw = ExtractResult.noArrayFound (pyStripStr raw) := by
  simp only [extractPipeline, extractCore, h1, h2]

theorem no_array_found_on_missing_brackets_witness :
    (tryParseArray (cleanData "  no brackets here  ") = none ∧
     bracketSlice (cleanData "  no brackets here  ") = none) ∧
    extractPipeline "  no brackets here  " = ExtractResult.noArrayFound (pyStripStr "  no brackets here  ") :=
  ⟨⟨rfl, rfl⟩, no_array_found_on_missing_brackets _ rfl rfl⟩

/-- C5 counterexample: on the response of the specification's scenario the
extraction does not fail with kind not-an-array. -/
theorem not_an_array_scenario_counterexample :
    isNotAnArrayR (extractPipeline "\x7b\"not\": \"an array\"\x7d") = false := rfl

/-- C5 (amended): the response contains no bracket at all, so extraction
fails with kind no-array-found, carrying the response text. -/
theorem not_an_array_scenario_amended :
    extractPipeline "\x7b\"not\": \"an array\"\x7d" =
      ExtractResult.noArrayFound "\x7b\"not\": \"an array\"\x7d" := rfl

/-- C9: the not-an-array failure branch of bracket recovery is unreachable:
no generator response can make the extraction return that outcome, because
the extracted substring begins with the first '[' and a successful JSON parse
of text beginning with '[' is always an array. -/
theorem not_an_array_unreachable (raw : String) :
    isNotAnArrayR (extractPipeline raw) = false :=
  extractCore_no_notAnArray _ _

/-- C6: every failure response (status 400 or 500) of the
/api/process_pipeline_llm handler contains the field pipeline with value
null.  The one failure body built without a pipeline field (the not-an-array
branch) is unreachable. -/
theorem failure_response_has_null_pipeline (llmOutcome : Except String String)
    (h : (processPipelineLlm llmOutcome).1 = 400 ∨ (processPipelineLlm llmOutcome).1 = 500) :
    ("pipeline", Json.null) ∈ (processPipelineLlm llmOutcome).2 := by
  rcases llmOutcome with e | raw
  · simp [processPipelineLlm]
  · cases hx : extractPipeline raw with
    | ok es => simp [processPipelineLlm, hx] at h
    | notAnArray a b =>
      have hun := extractCore_no_notAnArray (cleanData raw) (pyStripStr raw)
      have heq : extractPipeline raw = extractCore (cleanData raw) (pyStripStr raw) := rfl
      rw [heq] at hx
      rw [hx] at hun
      exact absurd hun (by simp [isNotAnArrayR])
    | decodeError a b => simp [processPipelineLlm, hx]
    | noArrayFound a => simp [processPipelineLlm, hx]

theorem failure_response_has_null_pipeline_witness :
    ((processPipelineLlm (Except.ok "\x7b\x7d")).1 = 400 ∨
     (processPipelineLlm (Except.ok "\x7b\x7d")).1 = 500) ∧
    ("pipeline", Json.null) ∈ (processPipelineLlm (Except.ok "\x7b\x7d")).2 :=
  ⟨Or.inl rfl, failure_response_has_null_pipeline _ (Or.inl rfl)⟩

/-- C7: for a list pipeline, sample_docs passes the caller's stages unchanged
to the store when some top-level dict stage already has the key $limit, and
otherwise appends exactly one final stage with the requested limit. -/
theorem sample_docs_limit_stage (stages : List Json) (limit : Json) :
    (stages.any stageHasLimitKey = true →
      sampleDocsPipeline (Json.arr stages) limit = stages) ∧
    (stages.any stageHasLimitKey = false →
      sampleDocsPipeline (Json.arr stages) limit = stages ++ [Json.obj [("$limit", limit)]]) := by
  constructor <;> intro h <;> simp [sampleDocsPipeline, h]

theorem sample_docs_limit_stage_witness :
    (([Json.obj [("$limit", Json.num 3 0)]].any stageHasLimitKey = true ∧
      sampleDocsPipeline (Json.arr [Json.obj [("$limit", Json.num 3 0)]]) (Json.num 10 0) =
        [Json.obj [("$limit", Json.num 3 0)]]) ∧
     ([Json.obj [("$match", Json.null)]].any stageHasLimitKey = false ∧
      sampleDocsPipeline (Json.arr [Json.obj [("$match", Json.null)]]) (Json.num 10 0) =
        [Json.obj [("$match", Json.null)], Json.obj [("$limit", Json.num 10 0)]])) :=
  ⟨⟨rfl, (sample_docs_limit_stage _ _).1 rfl⟩, ⟨rfl, (sample_docs_limit_stage _ _).2 rfl⟩⟩

theorem countName_eq_zero_iff (s : List (String × Json)) (n : String) :
    countName s n = 0 ↔ s.any (fun kv => kv.1 == n) = false := by
  induction s with
  | nil => simp [countName]
  | cons kv rest ih =>
    simp only [countName, List.filter_cons, List.any_cons] at *
    cases h : (kv.1 == n) with
    | true => simp [h]
    | false => simp [h, ih]

theorem countName_append (s t : List (String × Json)) (n : String) :
    countName (s ++ t) n = countName s n + countName t n := by
  simp [countName, List.filter_append]

theorem replaceFirst_countName (s : List (String × Json)) (n : String) (c : Json) :
    countName (replaceFirstConfig s n c) n = countName s n := by
  induction s with
  | nil => rfl
  | cons kv rest ih =>
    rcases kv with ⟨k, v⟩
    by_cases hk : k = n
    · subst hk
      simp [replaceFirstConfig, countName, List.filter_cons]
    · simp only [replaceFirstConfig, if_neg hk, countName, List.filter_cons] at *
      have hb : (k == n) = false := by simpa using hk
      simp [hb] at *
      exact ih

theorem replaceFirst_findConfig (s : List (String × Json)) (n : String) (c : Json)
    (h : s.any (fun kv => kv.1 == n) = true) :
    findConfig (replaceFirstConfig s n c) n = some c := by
  induction s with
  | nil => simp at h
  | cons kv rest ih =>
    rcases kv with ⟨k, v⟩
    by_cases hk : k = n
    · subst hk
      simp [replaceFirstConfig, findConfig, List.find?_cons]
    · have hb : (k == n) = false := by simpa using hk
      have h' : rest.any (fun kv => kv.1 == n) = true := by simpa [hb] using h
      simp only [replaceFirstConfig, if_neg hk]
      simp only [findConfig, List.find?_cons, hb] at *
      exact ih h'

theorem any_of_countName_pos (s : List (String × Json)) (n : String)
    (h : 0 < countName s n) : s.any (fun kv => kv.1 == n) = true := by
  cases ha : s.any (fun kv => kv.1 == n) with
  | true => rfl
  | false =>
    have := (countName_eq_zero_iff s n).mpr ha
    omega

/-- C8: calling save_config twice with the same name against a store holding
at most one document of that name leaves exactly one stored entry under the
name, holding the second config (upsert-by-name, last-write-wins). -/
theorem save_config_last_write_wins (store : List (String × Json)) (name : String)
    (c1 c2 : Json) (h : countName store name ≤ 1) :
    countName (updateOneUpsert (updateOneUpsert store name c1) name c2) name = 1 ∧
    findConfig (updateOneUpsert (updateOneUpsert store name c1) name c2) name = some c2 := by
  cases hany : store.any (fun kv => kv.1 == name) with
  | false =>
    have hz : countName store name = 0 := (countName_eq_zero_iff store name).mpr hany
    have h1 : updateOneUpsert store name c1 = store ++ [(name, c1)] := by
      unfold updateOneUpsert
      rw [hany]
      rfl
    have hc1 : countName (store ++ [(name, c1)]) name = 1 := by
      rw [countName_append, hz]
      simp [countName]
    have hany1 : (store ++ [(name, c1)]).any (fun kv => kv.1 == name) = true :=
      any_of_countName_pos _ _ (by omega)
    have h2 : updateOneUpsert (store ++ [(name, c1)]) name c2 =
        replaceFirstConfig (store ++ [(name, c1)]) name c2 := by
      unfold updateOneUpsert
      rw [hany1]
      rfl
    rw [h1, h2]
    refine ⟨?_, replaceFirst_findConfig _ _ _ hany1⟩
    rw [replaceFirst_countName]
    exact hc1
  | true =>
    have hpos : 0 < countName store name := by
      by_contra hc
      have : countName store name = 0 := by omega
      rw [countName_eq_zero_iff] at this
      rw [hany] at this
      exact absurd this (by simp)
    have h1 : updateOneUpsert store name c1 = replaceFirstConfig store name c1 := by
      unfold updateOneUpsert
      rw [hany]
      rfl
    have hc1 : countName (replaceFirstConfig store name c1) name = countName store name :=
      replaceFirst_countName _ _ _
    have hany1 : (replaceFirstConfig store name c1).any (fun kv => kv.1 == name) = true :=
      any_of_countName_pos _ _ (by omega)
    have h2 : updateOneUpsert (replaceFirstConfig store name c1) name c2 =
        replaceFirstConfig (replaceFirstConfig store name c1) name c2 := by
      unfold updateOneUpsert
      rw [hany1]
      rfl
    rw [h1, h2]
    refine ⟨?_, replaceFirst_findConfig _ _ _ hany1⟩
    rw [replaceFirst_countName, hc1]
    omega

theorem save_config_last_write_wins_witness :
    countName ([] : List (String × Json)) "unittest_project" ≤ 1 ∧
    (countName (updateOneUpsert (updateOneUpsert [] "unittest_project" (Json.str "a"))
        "unittest_project" (Json.str "b")) "unittest_project" = 1 ∧
     findConfig (updateOneUpsert (updateOneUpsert [] "unittest_project" (Json.str "a"))
        "unittest_project" (Json.str "b")) "unittest_project" = some (Json.str "b")) :=
  ⟨by decide, save_config_last_write_wins [] "unittest_project" (Json.str "a") (Json.str "b") (by decide)⟩

/-- C10: when the request body has no script field, validate_script falls
back to the empty string; provided the compile builtin accepts the empty
string (CPython's compile('', '<string>', 'exec') succeeds), the response is
valid: true. -/
theorem validate_script_absent_field (body : List (String × Json))
    (compileExec : String → Except String Unit)
    (h1 : body.find? (fun kv => kv.1 == "script") = none)
    (h2 : compileExec "" = Except.ok ()) :
    validateScript body compileExec = [("valid", Json.bool true)] := by
  simp only [validateScript, dictGet, h1, h2]

theorem validate_script_absent_field_witness :
    (([] : List (String × Json)).find? (fun kv => kv.1 == "script") = none ∧
     (fun _ : String => (Except.ok () : Except String Unit)) "" = Except.ok ()) ∧
    validateScript [] (fun _ : String => (Except.ok () : Except String Unit)) =
      [("valid", Json.bool true)] :=
  ⟨⟨rfl, rfl⟩, validate_script_absent_field _ _ rfl rfl⟩

/- ===================== Lemmas for the fence round-trip (C2) ===================== -/

theorem getLast?_cons_ne_nil (c : Char) (l : List Char) (h : l ≠ []) :
    (c :: l).getLast? = l.getLast? := by
  rcases l with _ | ⟨x, xs⟩
  · exact absurd rfl h
  · exact List.getLast?_cons_cons

theorem pyStrip_id (l : List Char)
    (hh : ∀ c, l.head? = some c → isPyWs c = false)
    (hl : ∀ c, l.getLast? = some c → isPyWs c = false) : pyStrip l = l := by
  rcases l with _ | ⟨c, t⟩
  · rfl
  · have h1 : (c :: t).dropWhile isPyWs = c :: t := by
      simp [List.dropWhile_cons, hh c rfl]
    unfold pyStrip
    rw [h1]
    rcases hr : (c :: t).reverse with _ | ⟨d, r⟩
    · exact absurd hr (by simp)
    · have hd : (c :: t).getLast? = some d := by
        rw [← List.head?_reverse, hr]
        rfl
      have h2 : (d :: r).dropWhile isPyWs = d :: r := by
        simp [List.dropWhile_cons, hl d hd]
      have h3 : (d :: r).reverse = c :: t := by
        rw [← hr, List.reverse_reverse]
      rw [h2]
      exact h3

theorem splitLastNl_eq_none (l : List Char) (h : '\n' ∉ l) : splitLastNl l = none := by
  induction l with
  | nil => rfl
  | cons c t ih =>
    have hct : '\n' ∉ t := fun hm => h (List.mem_cons_of_mem _ hm)
    have hc : ¬ (c = '\n') := fun he => h (he ▸ List.mem_cons_self _ _)
    simp [splitLastNl, ih hct, hc]

/-- A whitespace scan over l ++ S stays inside l when l holds a non-whitespace
character. -/
theorem wsScan_append (l S : List Char) (x : Char) (hx : x ∈ l) (hpx : isPyWs x = false) :
    (l ++ S).takeWhile isPyWs = l.takeWhile isPyWs ∧
    (l ++ S).dropWhile isPyWs = l.dropWhile isPyWs ++ S := by
  induction l with
  | nil => exact absurd hx (by simp)
  | cons c t ih =>
    by_cases hc : isPyWs c
    · have hxt : x ∈ t := by
        rcases List.mem_cons.mp hx with he | hm
        · exact absurd hpx (by simp [he, hc])
        · exact hm
      have hr := ih hxt
      constructor
      · simp [List.takeWhile_cons, hc, hr.1]
      · simp [List.dropWhile_cons, hc, hr.2]
    · have hcb : isPyWs c = false := by simpa using hc
      constructor
      · simp [List.takeWhile_cons, hcb]
      · simp [List.dropWhile_cons, hcb]

theorem dropWhile_ne_nil_of_mem (l : List Char) (x : Char) (hx : x ∈ l)
    (hpx : isPyWs x = false) : l.dropWhile isPyWs ≠ [] := by
  intro h0
  rw [List.dropWhile_eq_nil_iff] at h0
  rw [h0 x hx] at hpx
  exact absurd hpx (by simp)

theorem mem_of_mem_dropWhile (l : List Char) (x : Char) (h : x ∈ l.dropWhile isPyWs) : x ∈ l :=
  (List.dropWhile_sublist isPyWs).mem h

theorem mem_of_mem_takeWhile (l : List Char) (x : Char) (h : x ∈ l.takeWhile isPyWs) : x ∈ l :=
  (List.takeWhile_sublist isPyWs).mem h

theorem getLast?_dropWhile (l : List Char) (h : l.dropWhile isPyWs ≠ []) :
    (l.dropWhile isPyWs).getLast? = l.getLast? := by
  conv_rhs => rw [← List.takeWhile_append_dropWhile isPyWs l]
  rw [List.getLast?_append]
  rcases hg : (l.dropWhile isPyWs).getLast? with _ | x
  · exact absurd (List.getLast?_isSome.mpr h) (by simp [hg])
  · rfl

theorem isTicks3_shape (L r : List Char) (h : isTicks3 L = some r) :
    L = '\x60' :: '\x60' :: '\x60' :: r := by
  rcases L with _ | ⟨c1, L1⟩
  · exact absurd h (by simp [isTicks3])
  · by_cases h1 : c1 = '\x60'
    · subst h1
      rcases L1 with _ | ⟨c2, L2⟩
      · exact absurd h (by simp [isTicks3])
      · by_cases h2 : c2 = '\x60'
        · subst h2
          rcases L2 with _ | ⟨c3, L3⟩
          · exact absurd h (by simp [isTicks3])
          · by_cases h3 : c3 = '\x60'
            · subst h3
              simp only [isTicks3, if_pos rfl] at h
              simp at h
              rw [h]
            · exact absurd h (by simp [isTicks3, h3])
        · exact absurd h (by simp [isTicks3, h2])
    · exact absurd h (by simp [isTicks3, h1])

theorem matchAlt1_false_none (l : List Char) : matchAlt1 false l = none := rfl

theorem matchAlt1_true_bracket (t : List Char) : matchAlt1 true ('[' :: t) = none := rfl

/-- The second fence alternative never matches at a position whose text is a
newline-free block ending in ']' followed by nothing or by the closing
fence: the whitespace runs stay inside the block, whose final ']' defeats
both "whitespace to the end" and "whitespace to a newline". -/
theorem matchAlt2_none_of (m S : List Char) (hm : m ≠ []) (hnl : '\n' ∉ m)
    (hlast : m.getLast? = some ']')
    (hS : S = [] ∨ S = ['\n', '\x60', '\x60', '\x60']) :
    matchAlt2 (m ++ S) = none := by
  have hws : isPyWs ']' = false := rfl
  have hmemlast : ']' ∈ m := List.mem_of_mem_getLast? hlast
  have hscan := wsScan_append m S ']' hmemlast hws
  have hdne : m.dropWhile isPyWs ≠ [] := dropWhile_ne_nil_of_mem m ']' hmemlast hws
  have hdlast : (m.dropWhile isPyWs).getLast? = some ']' := by
    rw [getLast?_dropWhile m hdne]
    exact hlast
  have hdnl : '\n' ∉ m.dropWhile isPyWs := fun hmem => hnl (mem_of_mem_dropWhile m '\n' hmem)
  unfold matchAlt2
  rw [hscan.2]
  rcases ht : isTicks3 (m.dropWhile isPyWs ++ S) with _ | r2
  · rfl
  · have heq := isTicks3_shape _ _ ht
    rcases hD : m.dropWhile isPyWs with _ | ⟨c1, d1⟩
    · exact absurd hD hdne
    · rw [hD] at heq hdlast hdnl
      rcases d1 with _ | ⟨c2, d2⟩
      · have hc1 : c1 = ']' := by simpa using hdlast
        subst hc1
        rcases hS with h0 | h0 <;> subst h0 <;> simp at heq
      · rcases d2 with _ | ⟨c3, d3⟩
        · have hc2 : c2 = ']' := by simpa using hdlast
          subst hc2
          rcases hS with h0 | h0 <;> subst h0 <;> simp at heq
        · simp only [List.cons_append, List.cons.injEq] at heq
          obtain ⟨hc1, hc2, hc3, hr2⟩ := heq
          subst hc1; subst hc2; subst hc3; subst hr2
          have hd3last : d3.getLast? = some ']' := by
            rcases d3 with _ | ⟨x, xs⟩
            · simp at hdlast
            · simpa [List.getLast?_cons_cons] using hdlast
          have hd3mem : ']' ∈ d3 := List.mem_of_mem_getLast? hd3last
          have hd3nl : '\n' ∉ d3 := fun hmem => hdnl (by simp [hmem])
          have hscan3 := wsScan_append d3 S ']' hd3mem hws
          have hr3ne : ((d3 ++ S).dropWhile isPyWs).isEmpty = false := by
            rw [hscan3.2]
            rw [List.isEmpty_eq_false]
            intro h0
            exact dropWhile_ne_nil_of_mem d3 ']' hd3mem hws (by
              rcases List.append_eq_nil.mp h0 with ⟨ha, _⟩
              exact ha)
          have hws2nl : '\n' ∉ (d3 ++ S).takeWhile isPyWs := by
            rw [hscan3.1]
            exact fun hmem => hd3nl (mem_of_mem_takeWhile _ _ hmem)
          simp only [hr3ne, splitLastNl_eq_none _ hws2nl]
          simp

theorem fenceSubAux_cons (f : Nat) (ls : Bool) (c : Char) (rest : List Char) :
    fenceSubAux (f + 1) ls (c :: rest) =
      (match matchAlt1 ls (c :: rest) with
       | some (nl, rem) => fenceSubAux f nl rem
       | none =>
         match matchAlt2 (c :: rest) with
         | some (nl, rem) => fenceSubAux f nl rem
         | none => c :: fenceSubAux f (c == '\n') rest) := rfl

/-- The scan emits a newline-free block ending in ']' unchanged (no fence
match can begin inside it) and reaches the trailing text with the
line-start anchor off. -/
theorem fence_scan_pass (S : List Char)
    (hS : S = [] ∨ S = ['\n', '\x60', '\x60', '\x60']) :
    ∀ (m : List Char) (f : Nat) (ls : Bool),
      m ≠ [] → '\n' ∉ m → m.getLast? = some ']' →
      (ls = true → ∃ t, m = '[' :: t) →
      fenceSubAux (f + m.length) ls (m ++ S) = m ++ fenceSubAux f false S := by
  intro m
  induction m with
  | nil => intro f ls hne _ _ _; exact absurd rfl hne
  | cons c t ih =>
    intro f ls hne hnl hlast hls
    have hlen : f + (c :: t).length = (f + t.length) + 1 := by
      simp [List.length_cons]
      omega
    rw [hlen, List.cons_append, fenceSubAux_cons]
    have hA1 : matchAlt1 ls (c :: (t ++ S)) = none := by
      cases ls with
      | false => exact matchAlt1_false_none _
      | true =>
        obtain ⟨t', ht'⟩ := hls rfl
        have hc : c = '[' := by
          have := congrArg (fun l => l.head?) ht'
          simpa using this
        subst hc
        exact matchAlt1_true_bracket _
    have hA2 : matchAlt2 (c :: (t ++ S)) = none := by
      have := matchAlt2_none_of (c :: t) S hne hnl hlast hS
      rw [List.cons_append] at this
      exact this
    have hcb : (c == '\n') = false := by
      rw [beq_eq_false_iff_ne]
      intro he
      exact hnl (he ▸ List.mem_cons_self c t)
    simp only [hA1, hA2, hcb]
    rcases t with _ | ⟨x, xs⟩
    · simp
    · have htne : (x :: xs) ≠ [] := by simp
      have htnl : '\n' ∉ (x :: xs) := fun hm => hnl (List.mem_cons_of_mem _ hm)
      have htlast : (x :: xs).getLast? = some ']' := by
        rw [← getLast?_cons_ne_nil c _ htne]
        exact hlast
      have hrec := ih f false htne htnl htlast (fun h => absurd h (by simp))
      simp only [List.cons_append] at hrec ⊢
      rw [hrec]

theorem matchAlt1_json_fence (R : List Char) :
    matchAlt1 true
      ('\x60' :: '\x60' :: '\x60' :: 'j' :: 's' :: 'o' :: 'n' :: '\n' :: '[' :: R) =
      some (true, '[' :: R) := rfl

theorem matchAlt1_plain_fence (R : List Char) :
    matchAlt1 true ('\x60' :: '\x60' :: '\x60' :: '\n' :: '[' :: R) =
      some (true, '[' :: R) := rfl

/-- Stripping the fences of a fenced newline-free JSON-array text recovers
exactly the inner text, and leaves unfenced text alone. -/
theorem fenceSub_of_bracketed (t : List Char)
    (hnl : '\n' ∉ ('[' :: t)) (hlast : ('[' :: t).getLast? = some ']') :
    fenceSub ('[' :: t) = '[' :: t ∧
    fenceSub ('\x60' :: '\x60' :: '\x60' :: 'j' :: 's' :: 'o' :: 'n' :: '\n' ::
      (('[' :: t) ++ ['\n', '\x60', '\x60', '\x60'])) = '[' :: t ∧
    fenceSub ('\x60' :: '\x60' :: '\x60' :: '\n' ::
      (('[' :: t) ++ ['\n', '\x60', '\x60', '\x60'])) = '[' :: t := by
  have hne : ('[' :: t) ≠ [] := by simp
  have hhead : (true = true) → ∃ t', ('[' :: t : List Char) = '[' :: t' := fun _ => ⟨t, rfl⟩
  refine ⟨?_, ?_, ?_⟩
  · have hP := fence_scan_pass [] (Or.inl rfl) ('[' :: t) 1 true hne hnl hlast hhead
    rw [List.append_nil] at hP
    have hz : fenceSubAux 1 false ([] : List Char) = [] := rfl
    rw [hz, List.append_nil] at hP
    unfold fenceSub
    rw [Nat.add_comm]
    exact hP
  · have hP := fence_scan_pass ['\n', '\x60', '\x60', '\x60'] (Or.inr rfl)
      ('[' :: t) 12 true hne hnl hlast hhead
    have hz : fenceSubAux 12 false ['\n', '\x60', '\x60', '\x60'] = [] := rfl
    rw [hz, List.append_nil] at hP
    unfold fenceSub
    have hlen : ('\x60' :: '\x60' :: '\x60' :: 'j' :: 's' :: 'o' :: 'n' :: '\n' ::
        (('[' :: t) ++ ['\n', '\x60', '\x60', '\x60'])).length = (t.length + 12) + 1 := by
      simp [List.length_cons, List.length_append]
    rw [hlen]
    have hstep : fenceSubAux ((t.length + 12) + 1 + 1) true
        ('\x60' :: '\x60' :: '\x60' :: 'j' :: 's' :: 'o' :: 'n' :: '\n' ::
          (('[' :: t) ++ ['\n', '\x60', '\x60', '\x60'])) =
        fenceSubAux ((t.length + 12) + 1) true
          ('[' :: (t ++ ['\n', '\x60', '\x60', '\x60'])) := by
      rw [List.cons_append, fenceSubAux_cons, matchAlt1_json_fence]
    rw [hstep]
    have harith : (t.length + 12) + 1 = 12 + ('[' :: t).length := by
      simp [List.length_cons]
      omega
    rw [harith, ← List.cons_append]
    exact hP
  · have hP := fence_scan_pass ['\n', '\x60', '\x60', '\x60'] (Or.inr rfl)
      ('[' :: t) 8 true hne hnl hlast hhead
    have hz : fenceSubAux 8 false ['\n', '\x60', '\x60', '\x60'] = [] := rfl
    rw [hz, List.append_nil] at hP
    unfold fenceSub
    have hlen : ('\x60' :: '\x60' :: '\x60' :: '\n' ::
        (('[' :: t) ++ ['\n', '\x60', '\x60', '\x60'])).length = (t.length + 8) + 1 := by
      simp [List.length_cons, List.length_append]
    rw [hlen]
    have hstep : fenceSubAux ((t.length + 8) + 1 + 1) true
        ('\x60' :: '\x60' :: '\x60' :: '\n' ::
          (('[' :: t) ++ ['\n', '\x60', '\x60', '\x60'])) =
        fenceSubAux ((t.length + 8) + 1) true
          ('[' :: (t ++ ['\n', '\x60', '\x60', '\x60'])) := by
      rw [List.cons_append, fenceSubAux_cons, matchAlt1_plain_fence]
    rw [hstep]
    have harith : (t.length + 8) + 1 = 8 + ('[' :: t).length := by
      simp [List.length_cons]
      omega
    rw [harith, ← List.cons_append]
    exact hP

/- ===================== Serializer output contains no newline ===================== -/

theorem digitChar_ne_nl (n : Nat) : digitChar n ≠ '\n' := by
  have h : ∀ k : Fin 10, "0123456789".data.getD k.val '0' ≠ '\n' := by decide
  exact h ⟨n % 10, Nat.mod_lt _ (by decide)⟩

theorem hexChar_ne_nl (n : Nat) : hexChar n ≠ '\n' := by
  have h : ∀ k : Fin 16, "0123456789abcdef".data.getD k.val '0' ≠ '\n' := by decide
  exact h ⟨n % 16, Nat.mod_lt _ (by decide)⟩

theorem natCharsF_no_nl (f : Nat) : ∀ n, '\n' ∉ natCharsF f n := by
  induction f with
  | zero => intro n h; exact absurd h (by simp [natCharsF])
  | succ f ih =>
    intro n h
    unfold natCharsF at h
    by_cases hn : n < 10
    · rw [if_pos hn] at h
      simp at h
      exact digitChar_ne_nl n h.symm
    · rw [if_neg hn] at h
      rcases List.mem_append.mp h with h1 | h2
      · exact ih _ h1
      · simp at h2
        exact digitChar_ne_nl _ h2.symm

theorem intChars_no_nl (i : Int) : '\n' ∉ intChars i := by
  unfold intChars
  by_cases hi : i < 0
  · rw [if_pos hi]
    intro h
    rcases List.mem_cons.mp h with h1 | h2
    · exact absurd h1 (by decide)
    · exact natCharsF_no_nl _ _ h2
  · rw [if_neg hi]
    exact natCharsF_no_nl _ _

theorem serNum_no_nl (m e : Int) : '\n' ∉ serNum m e := by
  unfold serNum
  by_cases he : e = 0
  · rw [if_pos he]
    exact intChars_no_nl m
  · rw [if_neg he]
    intro h
    rcases List.mem_append.mp h with h1 | h2
    · exact intChars_no_nl m h1
    · rcases List.mem_cons.mp h2 with h3 | h4
      · exact absurd h3 (by decide)
      · exact intChars_no_nl e h4

theorem uEscape_no_nl (n : Nat) : '\n' ∉ uEscape n := by
  intro h
  unfold uEscape at h
  rcases List.mem_cons.mp h with h1 | h
  · exact absurd h1 (by decide)
  rcases List.mem_cons.mp h with h1 | h
  · exact absurd h1 (by decide)
  rcases List.mem_cons.mp h with h1 | h
  · exact hexChar_ne_nl _ h1.symm
  rcases List.mem_cons.mp h with h1 | h
  · exact hexChar_ne_nl _ h1.symm
  rcases List.mem_cons.mp h with h1 | h
  · exact hexChar_ne_nl _ h1.symm
  rcases List.mem_cons.mp h with h1 | h
  · exact hexChar_ne_nl _ h1.symm
  exact absurd h (by simp)

theorem escapeChar_no_nl (c : Char) : '\n' ∉ escapeChar c := by
  unfold escapeChar
  split_ifs with h1 h2 h3 h4 h5 h6 h7 h8 h9
  · intro h; simp at h
  · intro h; simp at h
  · intro h; simp at h
  · intro h; simp at h
  · intro h; simp at h
  · intro h; simp at h
  · intro h; simp at h
  · intro h
    simp at h
    rw [← h] at h8
    exact absurd h8.1 (by decide)
  · exact uEscape_no_nl _
  · intro h
    rcases List.mem_append.mp h with hm | hm
    · exact uEscape_no_nl _ hm
    · exact uEscape_no_nl _ hm

theorem escChars_no_nl (cs : List Char) : '\n' ∉ escChars cs := by
  induction cs with
  | nil => simp [escChars]
  | cons c r ih =>
    intro h
    rcases List.mem_append.mp h with hm | hm
    · exact escapeChar_no_nl c hm
    · exact ih hm

theorem serStr_no_nl (s : String) : '\n' ∉ serStr s := by
  intro h
  unfold serStr at h
  rcases List.mem_cons.mp h with h1 | h2
  · exact absurd h1 (by decide)
  · rcases List.mem_append.mp h2 with h3 | h4
    · exact escChars_no_nl _ h3
    · simp at h4

theorem serJson_no_nl : ∀ j : Json, '\n' ∉ serJson j := by
  refine serJson.induct (fun j => '\n' ∉ serJson j) (fun ms => '\n' ∉ serMembers ms)
    (fun es => '\n' ∉ serList es) ?_ ?_ ?_ ?_ ?_ ?_ ?_ ?_ ?_ ?_ ?_ ?_ ?_
  · decide
  · decide
  · decide
  · intro m e
    exact serNum_no_nl m e
  · intro s
    exact serStr_no_nl s
  · intro es ih h
    rw [show serJson (Json.arr es) = '[' :: (serList es ++ [']']) from rfl] at h
    rcases List.mem_cons.mp h with h1 | h2
    · exact absurd h1 (by decide)
    · rcases List.mem_append.mp h2 with h3 | h4
      · exact ih h3
      · simp at h4
  · intro ms ih h
    rw [show serJson (Json.obj ms) = '\x7b' :: (serMembers ms ++ ['\x7d']) from rfl] at h
    rcases List.mem_cons.mp h with h1 | h2
    · exact absurd h1 (by decide)
    · rcases List.mem_append.mp h2 with h3 | h4
      · exact ih h3
      · simp at h4
  · decide
  · intro j ih
    exact ih
  · intro j rest hne ih1 ih3 h
    rcases rest with _ | ⟨y, ys⟩
    · exact hne rfl
    · rw [show serList (j :: y :: ys) = serJson j ++ ',' :: ' ' :: serList (y :: ys) from rfl] at h
      rcases List.mem_append.mp h with h1 | h2
      · exact ih1 h1
      · rcases List.mem_cons.mp h2 with h3 | h4
        · exact absurd h3 (by decide)
        · rcases List.mem_cons.mp h4 with h5 | h6
          · exact absurd h5 (by decide)
          · exact ih3 h6
  · decide
  · intro k v ih h
    rw [show serMembers [(k, v)] = serStr k ++ ':' :: ' ' :: serJson v from rfl] at h
    rcases List.mem_append.mp h with h1 | h2
    · exact serStr_no_nl k h1
    · rcases List.mem_cons.mp h2 with h3 | h4
      · exact absurd h3 (by decide)
      · rcases List.mem_cons.mp h4 with h5 | h6
        · exact absurd h5 (by decide)
        · exact ih h6
  · intro k v rest hne ih1 ih2 h
    rcases rest with _ | ⟨y, ys⟩
    · exact hne rfl
    · rw [show serMembers ((k, v) :: y :: ys) =
          (serStr k ++ ':' :: ' ' :: serJson v) ++ ',' :: ' ' :: serMembers (y :: ys) from rfl] at h
      rcases List.mem_append.mp h with h1 | h2
      · rcases List.mem_append.mp h1 with h3 | h4
        · exact serStr_no_nl k h3
        · rcases List.mem_cons.mp h4 with h5 | h6
          · exact absurd h5 (by decide)
          · rcases List.mem_cons.mp h6 with h7 | h8
            · exact absurd h7 (by decide)
            · exact ih1 h8
      · rcases List.mem_cons.mp h2 with h3 | h4
        · exact absurd h3 (by decide)
        · rcases List.mem_cons.mp h4 with h5 | h6
          · exact absurd h5 (by decide)
          · exact ih2 h6

theorem pyStrip_id_of (l : List Char) (a b : Char) (ha : l.head? = some a)
    (hb : l.getLast? = some b) (hwa : isPyWs a = false) (hwb : isPyWs b = false) :
    pyStrip l = l := by
  refine pyStrip_id l ?_ ?_
  · intro c hc
    rw [ha] at hc
    injection hc with h
    rw [← h]
    exact hwa
  · intro c hc
    rw [hb] at hc
    injection hc with h
    rw [← h]
    exact hwb

theorem getLast?_cons_of_getLast? (x : Char) (l : List Char) (b : Char)
    (h : l.getLast? = some b) : (x :: l).getLast? = some b := by
  have hne : l ≠ [] := by
    intro h0
    rw [h0] at h
    exact absurd h (by simp)
  rw [getLast?_cons_ne_nil x l hne]
  exact h

theorem serJson_arr_eq (es : List Json) :
    serJson (Json.arr es) = '[' :: (serList es ++ [']']) := rfl

theorem serJson_arr_last (es : List Json) :
    (serJson (Json.arr es)).getLast? = some ']' := by
  rw [serJson_arr_eq, ← List.cons_append]
  exact List.getLast?_concat _

/-- The normalization (strip, fence removal, strip) of the serialized array,
of its json-tagged fenced wrapping, and of its untagged fenced wrapping all
yield exactly the serialized array text. -/
theorem cleanData_serArr (es : List Json) :
    cleanData (serString (Json.arr es)) = serJson (Json.arr es) ∧
    cleanData (fencedWrap "json" (serString (Json.arr es))) = serJson (Json.arr es) ∧
    cleanData (fencedWrap "" (serString (Json.arr es))) = serJson (Json.arr es) := by
  have hnl : '\n' ∉ ('[' :: (serList es ++ [']'])) := by
    rw [← serJson_arr_eq]
    exact serJson_no_nl (Json.arr es)
  have hlast : ('[' :: (serList es ++ [']'])).getLast? = some ']' := by
    rw [← serJson_arr_eq]
    exact serJson_arr_last es
  have hfence := fenceSub_of_bracketed (serList es ++ [']']) hnl hlast
  have hstripL : pyStrip (serJson (Json.arr es)) = serJson (Json.arr es) := by
    refine pyStrip_id_of _ '[' ']' ?_ (serJson_arr_last es) rfl rfl
    rw [serJson_arr_eq]
    rfl
  refine ⟨?_, ?_, ?_⟩
  · show pyStrip (fenceSub (pyStrip (serJson (Json.arr es)))) = serJson (Json.arr es)
    rw [hstripL, serJson_arr_eq, hfence.1, ← serJson_arr_eq, hstripL]
  · have hdata : (fencedWrap "json" (serString (Json.arr es))).data =
        '\x60' :: '\x60' :: '\x60' :: 'j' :: 's' :: 'o' :: 'n' :: '\n' ::
          (serJson (Json.arr es) ++ ['\n', '\x60', '\x60', '\x60']) := rfl
    show pyStrip (fenceSub (pyStrip (fencedWrap "json" (serString (Json.arr es))).data)) =
      serJson (Json.arr es)
    rw [hdata]
    have htail : (serJson (Json.arr es) ++ ['\n', '\x60', '\x60', '\x60']).getLast? =
        some '\x60' := by
      rw [List.getLast?_append]
      rfl
    have hlastF : ('\x60' :: '\x60' :: '\x60' :: 'j' :: 's' :: 'o' :: 'n' :: '\n' ::
        (serJson (Json.arr es) ++ ['\n', '\x60', '\x60', '\x60'])).getLast? = some '\x60' := by
      apply getLast?_cons_of_getLast?
      apply getLast?_cons_of_getLast?
      apply getLast?_cons_of_getLast?
      apply getLast?_cons_of_getLast?
      apply getLast?_cons_of_getLast?
      apply getLast?_cons_of_getLast?
      apply getLast?_cons_of_getLast?
      apply getLast?_cons_of_getLast?
      exact htail
    have hstripF : pyStrip ('\x60' :: '\x60' :: '\x60' :: 'j' :: 's' :: 'o' :: 'n' :: '\n' ::
        (serJson (Json.arr es) ++ ['\n', '\x60', '\x60', '\x60'])) =
        '\x60' :: '\x60' :: '\x60' :: 'j' :: 's' :: 'o' :: 'n' :: '\n' ::
          (serJson (Json.arr es) ++ ['\n', '\x60', '\x60', '\x60']) :=
      pyStrip_id_of _ '\x60' '\x60' rfl hlastF rfl rfl
    rw [hstripF, serJson_arr_eq, hfence.2.1, ← serJson_arr_eq, hstripL]
  · have hdata : (fencedWrap "" (serString (Json.arr es))).data =
        '\x60' :: '\x60' :: '\x60' :: '\n' ::
          (serJson (Json.arr es) ++ ['\n', '\x60', '\x60', '\x60']) := rfl
    show pyStrip (fenceSub (pyStrip (fencedWrap "" (serString (Json.arr es))).data)) =
      serJson (Json.arr es)
    rw [hdata]
    have htail : (serJson (Json.arr es) ++ ['\n', '\x60', '\x60', '\x60']).getLast? =
        some '\x60' := by
      rw [List.getLast?_append]
      rfl
    have hlastF : ('\x60' :: '\x60' :: '\x60' :: '\n' ::
        (serJson (Json.arr es) ++ ['\n', '\x60', '\x60', '\x60'])).getLast? = some '\x60' := by
      apply getLast?_cons_of_getLast?
      apply getLast?_cons_of_getLast?
      apply getLast?_cons_of_getLast?
      apply getLast?_cons_of_getLast?
      exact htail
    have hstripF : pyStrip ('\x60' :: '\x60' :: '\x60' :: '\n' ::
        (serJson (Json.arr es) ++ ['\n', '\x60', '\x60', '\x60'])) =
        '\x60' :: '\x60' :: '\x60' :: '\n' ::
          (serJson (Json.arr es) ++ ['\n', '\x60', '\x60', '\x60']) :=
      pyStrip_id_of _ '\x60' '\x60' rfl hlastF rfl rfl
    rw [hstripF, serJson_arr_eq, hfence.2.2, ← serJson_arr_eq, hstripL]

/-- A successful extraction is determined by the normalized text alone (the
stripped raw text only feeds failure payloads). -/
theorem extractCore_ok_congr (clean : List Char) (r1 r2 : String) (es : List Json)
    (h : extractCore clean r1 = ExtractResult.ok es) :
    extractCore clean r2 = ExtractResult.ok es := by
  unfold extractCore at h ⊢
  rcases h1 : tryParseArray clean with _ | es'
  · rw [h1] at h
    rcases h2 : bracketSlice clean with _ | s
    · rw [h2] at h
      simp at h
    · rw [h2] at h
      rcases h3 : jsonParse s with _ | v
      · simp only [h3] at h
        simp at h
      · simp only [h3] at h
        cases v with
        | arr es2 =>
          simp only [h3]
          simpa using h
        | null => simp at h
        | bool b => simp at h
        | num m e => simp at h
        | str s2 => simp at h
        | obj ms => simp at h
  · rw [h1] at h
    exact h


/- ===================== The serializer's output parses back =====================

   These lemmas show that the serialized form of any array value is accepted
   by the jsonParse model, so that the extraction of a fenced response can be
   compared with the unfenced one without any assumption. -/

theorem takeWhile_all_append (p : Char → Bool) (l S : List Char)
    (hall : ∀ c ∈ l, p c = true)
    (hS : ∀ c, S.head? = some c → p c = false) :
    (l ++ S).takeWhile p = l ∧ (l ++ S).dropWhile p = S := by
  induction l with
  | nil =>
    simp only [List.nil_append]
    rcases S with _ | ⟨c, r⟩
    · exact ⟨rfl, rfl⟩
    · have hc := hS c rfl
      constructor
      · simp [List.takeWhile_cons, hc]
      · simp [List.dropWhile_cons, hc]
  | cons x xs ih =>
    have hx : p x = true := hall x (List.mem_cons_self _ _)
    have ih' := ih (fun c hc => hall c (List.mem_cons_of_mem _ hc))
    constructor
    · simp [List.takeWhile_cons, hx, ih'.1]
    · simp [List.dropWhile_cons, hx, ih'.2]

theorem digitChar_mod (n : Nat) : digitChar n = digitChar (n % 10) := by
  unfold digitChar
  congr 1
  omega

theorem digitChar_isDigit (n : Nat) : (digitChar n).isDigit = true := by
  have h : ∀ k : Fin 10, (digitChar k.val).isDigit = true := by decide
  rw [digitChar_mod]
  exact h ⟨n % 10, Nat.mod_lt _ (by decide)⟩

theorem digitChar_pos_ne_zero (n : Nat) (h1 : n ≠ 0) (h2 : n < 10) :
    digitChar n ≠ '0' := by
  have h : ∀ k : Fin 10, k.val ≠ 0 → digitChar k.val ≠ '0' := by decide
  exact h ⟨n, h2⟩ h1

theorem natCharsF_all_digit (f : Nat) : ∀ n x, x ∈ natCharsF f n → x.isDigit = true := by
  induction f with
  | zero => intro n x hx; exact absurd hx (by simp [natCharsF])
  | succ f ih =>
    intro n x hx
    unfold natCharsF at hx
    by_cases hn : n < 10
    · rw [if_pos hn] at hx
      simp at hx
      rw [hx]
      exact digitChar_isDigit n
    · rw [if_neg hn] at hx
      rcases List.mem_append.mp hx with h1 | h2
      · exact ih _ _ h1
      · simp at h2
        rw [h2]
        exact digitChar_isDigit _

theorem natCharsF_shape (f : Nat) : ∀ n, n < f →
    ∃ c T, natCharsF f n = c :: T ∧ (n ≠ 0 → c ≠ '0') := by
  induction f with
  | zero => intro n hn; omega
  | succ f ih =>
    intro n hn
    unfold natCharsF
    by_cases h10 : n < 10
    · rw [if_pos h10]
      exact ⟨digitChar n, [], rfl, fun hz => digitChar_pos_ne_zero n hz h10⟩
    · rw [if_neg h10]
      have hrec : n / 10 < f := by omega
      obtain ⟨c, T, hct, hcz⟩ := ih (n / 10) hrec
      rw [hct]
      exact ⟨c, T ++ [digitChar (n % 10)], by simp, fun _ => hcz (by omega)⟩

/-- The tails that can follow a serialized number: nothing, or a separator
or closing character of the enclosing array or object. -/
def sepRest (rest : List Char) : Prop :=
  rest = [] ∨ ∃ c r', rest = c :: r' ∧ (c = ',' ∨ c = ']' ∨ c = '\x7d')

theorem sepRest_head_not_digit (rest : List Char) (h : sepRest rest) :
    ∀ c, rest.head? = some c → c.isDigit = false := by
  intro c hc
  rcases h with h0 | ⟨c', r', hr, hcs⟩
  · rw [h0] at hc
    exact absurd hc (by simp)
  · rw [hr] at hc
    injection hc with hc
    subst hc
    rcases hcs with h1 | h1 | h1 <;> rw [h1] <;> rfl

theorem isDigit_ne_of (c x : Char) (h : c.isDigit = true) (hx : x.isDigit = false) :
    c ≠ x := by
  intro he
  rw [he, hx] at h
  exact absurd h (by simp)

theorem parseIntPart_cons (c : Char) (r : List Char) :
    parseIntPart (c :: r) =
      if c = '0' then some (0, r)
      else
        match parseDigits (c :: r) with
        | (ds, rr) => if ds.isEmpty then none else some (digitsToNat ds, rr) := rfl

theorem parseFrac_cons (c : Char) (rf : List Char) :
    parseFrac (c :: rf) =
      if c = '.' then
        match parseDigits rf with
        | (ds, rr) => if ds.isEmpty then ([], c :: rf) else (ds, rr)
      else ([], c :: rf) := rfl

theorem parseExp_cons (e : Char) (rest : List Char) :
    parseExp (e :: rest) =
      if e = 'e' ∨ e = 'E' then
        (match parseDigits (expSign rest).2 with
         | (ds, rr2) => if ds.isEmpty then (0, e :: rest) else ((expSign rest).1 * digitsToNat ds, rr2))
      else (0, e :: rest) := rfl

theorem numSign_cons (c : Char) (r : List Char) :
    numSign (c :: r) = if c = '-' then (-1, r) else (1, c :: r) := rfl

theorem expSign_cons (c : Char) (rr : List Char) :
    expSign (c :: rr) = if c = '+' then (1, rr) else if c = '-' then (-1, rr) else (1, c :: rr) := rfl

theorem natChars_parseIntPart (n : Nat) (tail : List Char)
    (htail : ∀ c, tail.head? = some c → c.isDigit = false) :
    ∃ v, parseIntPart (natCharsF (n + 1) n ++ tail) = some (v, tail) := by
  by_cases hz : n = 0
  · subst hz
    exact ⟨0, rfl⟩
  · obtain ⟨c, T, hct, hcz⟩ := natCharsF_shape (n + 1) n (by omega)
    have hall : ∀ x ∈ c :: T, x.isDigit = true := by
      intro x hx
      exact natCharsF_all_digit (n + 1) n x (hct ▸ hx)
    have hscan := takeWhile_all_append Char.isDigit (c :: T) tail hall htail
    rw [hct, List.cons_append, parseIntPart_cons]
    have hc0 : ¬ (c = '0') := hcz hz
    rw [if_neg hc0]
    unfold parseDigits
    rw [← List.cons_append, hscan.1, hscan.2]
    exact ⟨digitsToNat (c :: T), by simp⟩

theorem intChars_shape (m : Int) :
    ∃ c T, intChars m = c :: T ∧ (c = '-' ∨ c.isDigit = true) := by
  unfold intChars
  by_cases hm : m < 0
  · rw [if_pos hm]
    exact ⟨'-', _, rfl, Or.inl rfl⟩
  · rw [if_neg hm]
    obtain ⟨c, T, hct, _⟩ := natCharsF_shape (m.natAbs + 1) m.natAbs (by omega)
    refine ⟨c, T, hct, Or.inr ?_⟩
    exact natCharsF_all_digit _ _ c (hct ▸ List.mem_cons_self c T)

theorem parseFrac_nofrac (r1 : List Char) (h : ∀ c, r1.head? = some c → c ≠ '.') :
    parseFrac r1 = ([], r1) := by
  rcases r1 with _ | ⟨c, rf⟩
  · rfl
  · rw [parseFrac_cons, if_neg (h c rfl)]

theorem parseExp_noexp (r2 : List Char) (h : ∀ c, r2.head? = some c → c ≠ 'e' ∧ c ≠ 'E') :
    parseExp r2 = (0, r2) := by
  rcases r2 with _ | ⟨c, rf⟩
  · rfl
  · rw [parseExp_cons, if_neg]
    intro hor
    rcases hor with h1 | h1
    · exact (h c rfl).1 h1
    · exact (h c rfl).2 h1

theorem sepRest_head_facts (rest : List Char) (h : sepRest rest) :
    (∀ c, rest.head? = some c → c.isDigit = false) ∧
    (∀ c, rest.head? = some c → c ≠ '.') ∧
    (∀ c, rest.head? = some c → c ≠ 'e' ∧ c ≠ 'E') := by
  refine ⟨sepRest_head_not_digit rest h, ?_, ?_⟩ <;>
    intro c hc <;>
    rcases h with h0 | ⟨c', r', hr, hcs⟩
  · rw [h0] at hc
    exact absurd hc (by simp)
  · rw [hr] at hc
    injection hc with hc
    subst hc
    rcases hcs with h1 | h1 | h1 <;> rw [h1] <;> decide
  · rw [h0] at hc
    exact absurd hc (by simp)
  · rw [hr] at hc
    injection hc with hc
    subst hc
    rcases hcs with h1 | h1 | h1 <;> rw [h1] <;> exact ⟨by decide, by decide⟩

theorem natChars_parseNumTail (n : Nat) (rest : List Char) (hrest : sepRest rest) :
    ∃ v, parseIntPart (natCharsF (n + 1) n ++ rest) = some (v, rest) ∧
      parseFrac rest = ([], rest) ∧ parseExp rest = (0, rest) := by
  obtain ⟨hd, hp, he⟩ := sepRest_head_facts rest hrest
  obtain ⟨v, hv⟩ := natChars_parseIntPart n rest hd
  exact ⟨v, hv, parseFrac_nofrac rest hp, parseExp_noexp rest he⟩

theorem natCharsF_ne_nil (n : Nat) : natCharsF (n + 1) n ≠ [] := by
  obtain ⟨c, T, hct, _⟩ := natCharsF_shape (n + 1) n (by omega)
  rw [hct]
  simp

theorem parseDigits_natChars (n : Nat) (rest : List Char)
    (hrest : ∀ c, rest.head? = some c → c.isDigit = false) :
    parseDigits (natCharsF (n + 1) n ++ rest) = (natCharsF (n + 1) n, rest) := by
  have hall : ∀ x ∈ natCharsF (n + 1) n, x.isDigit = true :=
    fun x hx => natCharsF_all_digit _ _ x hx
  have hscan := takeWhile_all_append Char.isDigit _ rest hall hrest
  unfold parseDigits
  rw [hscan.1, hscan.2]

theorem numSign_intChars (m : Int) (tail : List Char) :
    ∃ sg : Int, numSign (intChars m ++ tail) =
      (sg, natCharsF (m.natAbs + 1) m.natAbs ++ tail) := by
  unfold intChars
  by_cases hm : m < 0
  · rw [if_pos hm, List.cons_append, numSign_cons, if_pos rfl]
    exact ⟨-1, rfl⟩
  · rw [if_neg hm]
    obtain ⟨c, T, hct, _⟩ := natCharsF_shape (m.natAbs + 1) m.natAbs (by omega)
    have hcd : c.isDigit = true := natCharsF_all_digit _ _ c (hct ▸ List.mem_cons_self c T)
    rw [hct, List.cons_append, numSign_cons, if_neg (isDigit_ne_of c '-' hcd rfl)]
    exact ⟨1, by rw [← List.cons_append]⟩

theorem expSign_intChars (e : Int) (tail : List Char) :
    ∃ sg : Int, expSign (intChars e ++ tail) =
      (sg, natCharsF (e.natAbs + 1) e.natAbs ++ tail) := by
  unfold intChars
  by_cases hm : e < 0
  · rw [if_pos hm, List.cons_append, expSign_cons, if_neg (by decide), if_pos rfl]
    exact ⟨-1, rfl⟩
  · rw [if_neg hm]
    obtain ⟨c, T, hct, _⟩ := natCharsF_shape (e.natAbs + 1) e.natAbs (by omega)
    have hcd : c.isDigit = true := natCharsF_all_digit _ _ c (hct ▸ List.mem_cons_self c T)
    rw [hct, List.cons_append, expSign_cons, if_neg (isDigit_ne_of c '+' hcd rfl),
      if_neg (isDigit_ne_of c '-' hcd rfl)]
    exact ⟨1, by rw [← List.cons_append]⟩

theorem serNum_parse (m e : Int) (rest : List Char) (hrest : sepRest rest) :
    ∃ j, parseNumber (serNum m e ++ rest) = some (j, rest) := by
  obtain ⟨hd, hp, hee⟩ := sepRest_head_facts rest hrest
  by_cases he0 : e = 0
  · subst he0
    have hser : serNum m 0 = intChars m := by
      unfold serNum
      rw [if_pos rfl]
    rw [hser]
    obtain ⟨sg, hsg⟩ := numSign_intChars m rest
    obtain ⟨v, hv⟩ := natChars_parseIntPart m.natAbs rest hd
    simp only [parseNumber, hsg, hv, parseFrac_nofrac rest hp, parseExp_noexp rest hee]
    exact ⟨_, rfl⟩
  · have hser : serNum m e = intChars m ++ 'e' :: intChars e := by
      unfold serNum
      rw [if_neg he0]
    rw [hser, List.append_assoc, List.cons_append]
    obtain ⟨sg, hsg⟩ := numSign_intChars m ('e' :: (intChars e ++ rest))
    obtain ⟨v, hv⟩ := natChars_parseIntPart m.natAbs ('e' :: (intChars e ++ rest))
      (fun c hc => by injection hc with hc; rw [← hc]; rfl)
    have hfr : parseFrac ('e' :: (intChars e ++ rest)) = ([], 'e' :: (intChars e ++ rest)) := by
      rw [parseFrac_cons, if_neg (by decide)]
    obtain ⟨sg2, hsg2⟩ := expSign_intChars e rest
    have hdg := parseDigits_natChars e.natAbs rest hd
    have hne := natCharsF_ne_nil e.natAbs
    have hex : parseExp ('e' :: (intChars e ++ rest)) =
        (sg2 * digitsToNat (natCharsF (e.natAbs + 1) e.natAbs), rest) := by
      rw [parseExp_cons, if_pos (Or.inl rfl), hsg2]
      simp only [hdg]
      rw [if_neg (by simp [List.isEmpty_eq_false, hne])]
    simp only [parseNumber, hsg, hv, hfr, hex]
    exact ⟨_, rfl⟩

theorem hexChar_mod (x : Nat) : hexChar x = hexChar (x % 16) := by
  unfold hexChar
  congr 1
  omega

theorem hexDigitVal_hexChar (x : Nat) : hexDigitVal (hexChar x) = some (x % 16) := by
  have h : ∀ k : Fin 16, hexDigitVal (hexChar k.val) = some k.val := by decide
  rw [hexChar_mod]
  exact h ⟨x % 16, Nat.mod_lt _ (by decide)⟩

theorem hex4_uEscape (n : Nat) (h : n < 65536) :
    hex4 (hexChar (n / 4096)) (hexChar (n / 256)) (hexChar (n / 16)) (hexChar n) = some n := by
  unfold hex4
  simp only [hexDigitVal_hexChar]
  congr 1
  omega

theorem char_valid_range (c : Char) :
    c.toNat < 0xD800 ∨ (0xDFFF < c.toNat ∧ c.toNat < 0x110000) := by
  have hv := c.valid
  unfold UInt32.isValidChar at hv
  unfold Nat.isValidChar at hv
  exact hv

theorem uEscape_cons (n : Nat) (Y : List Char) :
    uEscape n ++ Y =
      '\\' :: 'u' :: hexChar (n / 4096) :: hexChar (n / 256) :: hexChar (n / 16) ::
        hexChar n :: Y := rfl

theorem parseStrF_u_step (g : Nat) (a b cc d : Char) (X : List Char) (n : Nat)
    (hhex : hex4 a b cc d = some n)
    (hno : ¬(0xD800 ≤ n ∧ n ≤ 0xDBFF)) (hno2 : ¬(0xDC00 ≤ n ∧ n ≤ 0xDFFF)) :
    parseStrF (g + 1) ('\\' :: 'u' :: a :: b :: cc :: d :: X) =
      (match parseStrF g X with
       | some (cs, rest) => some (Char.ofNat n :: cs, rest)
       | none => none) := by
  simp only [parseStrF, hhex, reduceIte]
  rw [if_neg hno, if_neg hno2, if_neg (show ('\\' : Char) ≠ '"' by decide)]

theorem parseStrF_upair_step (g : Nat) (a b cc d a2 b2 c2 d2 : Char) (X : List Char) (n m : Nat)
    (hhex : hex4 a b cc d = some n) (hhex2 : hex4 a2 b2 c2 d2 = some m)
    (hhi : 0xD800 ≤ n ∧ n ≤ 0xDBFF) (hlo : 0xDC00 ≤ m ∧ m ≤ 0xDFFF) :
    parseStrF (g + 1)
      ('\\' :: 'u' :: a :: b :: cc :: d :: '\\' :: 'u' :: a2 :: b2 :: c2 :: d2 :: X) =
      (match parseStrF g X with
       | some (cs, rest) =>
         some (Char.ofNat (0x10000 + (n - 0xD800) * 0x400 + (m - 0xDC00)) :: cs, rest)
       | none => none) := by
  simp only [parseStrF, hhex, hhex2, reduceIte]
  rw [if_pos hhi, if_pos hlo, if_neg (show ('\\' : Char) ≠ '"' by decide)]


/-- The escaped body of a serialized string scans back, consuming exactly up
to the closing quote. -/
theorem escChars_parse : ∀ (cs : List Char) (f : Nat) (rest : List Char),
    (escChars cs).length < f →
    ∃ out, parseStrF f (escChars cs ++ '"' :: rest) = some (out, rest) := by
  intro cs
  induction cs with
  | nil =>
    intro f rest hf
    rcases f with _ | g
    · simp [escChars] at hf
    · exact ⟨[], rfl⟩
  | cons c cs' ih =>
    intro f rest hf
    have hlen : (escChars (c :: cs')).length = (escapeChar c).length + (escChars cs').length := by
      simp [escChars]
    rw [show escChars (c :: cs') = escapeChar c ++ escChars cs' from rfl, List.append_assoc]
    rcases f with _ | g
    · omega
    · unfold escapeChar
      unfold escapeChar at hlen
      by_cases h1 : c = '\\'
      · rw [if_pos h1]
        rw [if_pos h1] at hlen
        obtain ⟨out, hout⟩ := ih g rest (by simp at hlen; omega)
        refine ⟨'\\' :: out, ?_⟩
        have step : parseStrF (g + 1) ('\\' :: '\\' :: (escChars cs' ++ '"' :: rest)) =
            (match parseStrF g (escChars cs' ++ '"' :: rest) with
             | some (cs, r) => some ('\\' :: cs, r)
             | none => none) := rfl
        rw [show ((['\\', '\\'] : List Char) ++ (escChars cs' ++ '"' :: rest)) =
          '\\' :: '\\' :: (escChars cs' ++ '"' :: rest) from rfl, step, hout]
      · rw [if_neg h1]
        rw [if_neg h1] at hlen
        by_cases h2 : c = '"'
        · rw [if_pos h2]
          rw [if_pos h2] at hlen
          obtain ⟨out, hout⟩ := ih g rest (by simp at hlen; omega)
          refine ⟨'"' :: out, ?_⟩
          have step : parseStrF (g + 1) ('\\' :: '"' :: (escChars cs' ++ '"' :: rest)) =
              (match parseStrF g (escChars cs' ++ '"' :: rest) with
               | some (cs, r) => some ('"' :: cs, r)
               | none => none) := rfl
          rw [show ((['\\', '"'] : List Char) ++ (escChars cs' ++ '"' :: rest)) =
            '\\' :: '"' :: (escChars cs' ++ '"' :: rest) from rfl, step, hout]
        · rw [if_neg h2]
          rw [if_neg h2] at hlen
          by_cases h3 : c = '\x08'
          · rw [if_pos h3]
            rw [if_pos h3] at hlen
            obtain ⟨out, hout⟩ := ih g rest (by simp at hlen; omega)
            refine ⟨'\x08' :: out, ?_⟩
            have step : parseStrF (g + 1) ('\\' :: 'b' :: (escChars cs' ++ '"' :: rest)) =
                (match parseStrF g (escChars cs' ++ '"' :: rest) with
                 | some (cs, r) => some ('\x08' :: cs, r)
                 | none => none) := rfl
            rw [show ((['\\', 'b'] : List Char) ++ (escChars cs' ++ '"' :: rest)) =
              '\\' :: 'b' :: (escChars cs' ++ '"' :: rest) from rfl, step, hout]
          · rw [if_neg h3]
            rw [if_neg h3] at hlen
            by_cases h4 : c = '\x0c'
            · rw [if_pos h4]
              rw [if_pos h4] at hlen
              obtain ⟨out, hout⟩ := ih g rest (by simp at hlen; omega)
              refine ⟨'\x0c' :: out, ?_⟩
              have step : parseStrF (g + 1) ('\\' :: 'f' :: (escChars cs' ++ '"' :: rest)) =
                  (match parseStrF g (escChars cs' ++ '"' :: rest) with
                   | some (cs, r) => some ('\x0c' :: cs, r)
                   | none => none) := rfl
              rw [show ((['\\', 'f'] : List Char) ++ (escChars cs' ++ '"' :: rest)) =
                '\\' :: 'f' :: (escChars cs' ++ '"' :: rest) from rfl, step, hout]
            · rw [if_neg h4]
              rw [if_neg h4] at hlen
              by_cases h5 : c = '\n'
              · rw [if_pos h5]
                rw [if_pos h5] at hlen
                obtain ⟨out, hout⟩ := ih g rest (by simp at hlen; omega)
                refine ⟨'\n' :: out, ?_⟩
                have step : parseStrF (g + 1) ('\\' :: 'n' :: (escChars cs' ++ '"' :: rest)) =
                    (match parseStrF g (escChars cs' ++ '"' :: rest) with
                     | some (cs, r) => some ('\n' :: cs, r)
                     | none => none) := rfl
                rw [show ((['\\', 'n'] : List Char) ++ (escChars cs' ++ '"' :: rest)) =
                  '\\' :: 'n' :: (escChars cs' ++ '"' :: rest) from rfl, step, hout]
              · rw [if_neg h5]
                rw [if_neg h5] at hlen
                by_cases h6 : c = '\r'
                · rw [if_pos h6]
                  rw [if_pos h6] at hlen
                  obtain ⟨out, hout⟩ := ih g rest (by simp at hlen; omega)
                  refine ⟨'\r' :: out, ?_⟩
                  have step : parseStrF (g + 1) ('\\' :: 'r' :: (escChars cs' ++ '"' :: rest)) =
                      (match parseStrF g (escChars cs' ++ '"' :: rest) with
                       | some (cs, r) => some ('\r' :: cs, r)
                       | none => none) := rfl
                  rw [show ((['\\', 'r'] : List Char) ++ (escChars cs' ++ '"' :: rest)) =
                    '\\' :: 'r' :: (escChars cs' ++ '"' :: rest) from rfl, step, hout]
                · rw [if_neg h6]
                  rw [if_neg h6] at hlen
                  by_cases h7 : c = '\t'
                  · rw [if_pos h7]
                    rw [if_pos h7] at hlen
                    obtain ⟨out, hout⟩ := ih g rest (by simp at hlen; omega)
                    refine ⟨'\t' :: out, ?_⟩
                    have step : parseStrF (g + 1) ('\\' :: 't' :: (escChars cs' ++ '"' :: rest)) =
                        (match parseStrF g (escChars cs' ++ '"' :: rest) with
                         | some (cs, r) => some ('\t' :: cs, r)
                         | none => none) := rfl
                    rw [show ((['\\', 't'] : List Char) ++ (escChars cs' ++ '"' :: rest)) =
                      '\\' :: 't' :: (escChars cs' ++ '"' :: rest) from rfl, step, hout]
                  · rw [if_neg h7]
                    rw [if_neg h7] at hlen
                    by_cases h8 : 0x20 ≤ c.toNat ∧ c.toNat ≤ 0x7e
                    · rw [if_pos h8]
                      rw [if_pos h8] at hlen
                      obtain ⟨out, hout⟩ := ih g rest (by simp at hlen; omega)
                      refine ⟨c :: out, ?_⟩
                      rw [show (([c] : List Char) ++ (escChars cs' ++ '"' :: rest)) =
                        c :: (escChars cs' ++ '"' :: rest) from rfl]
                      simp only [parseStrF]
                      rw [if_neg h2, if_neg h1, if_neg (by omega : ¬ c.toNat < 0x20), hout]
                    · rw [if_neg h8]
                      rw [if_neg h8] at hlen
                      by_cases h9 : c.toNat < 0x10000
                      · rw [if_pos h9]
                        rw [if_pos h9] at hlen
                        obtain ⟨out, hout⟩ := ih g rest (by
                          have hu : (uEscape c.toNat).length = 6 := rfl
                          omega)
                        have hval := char_valid_range c
                        refine ⟨Char.ofNat c.toNat :: out, ?_⟩
                        rw [uEscape_cons]
                        rw [parseStrF_u_step g _ _ _ _ _ c.toNat (hex4_uEscape c.toNat (by omega))
                          (by omega) (by omega), hout]
                      · rw [if_neg h9]
                        rw [if_neg h9] at hlen
                        obtain ⟨out, hout⟩ := ih g rest (by
                          have hu : ∀ k, (uEscape k).length = 6 := fun k => rfl
                          simp [hu] at hlen
                          omega)
                        have hval := char_valid_range c
                        refine ⟨Char.ofNat (0x10000 +
                          ((0xD800 + (c.toNat - 0x10000) / 0x400) - 0xD800) * 0x400 +
                          ((0xDC00 + (c.toNat - 0x10000) % 0x400) - 0xDC00)) :: out, ?_⟩
                        rw [List.append_assoc, uEscape_cons, uEscape_cons]
                        rw [parseStrF_upair_step g _ _ _ _ _ _ _ _ _
                          (0xD800 + (c.toNat - 0x10000) / 0x400) (0xDC00 + (c.toNat - 0x10000) % 0x400)
                          (hex4_uEscape _ (by omega)) (hex4_uEscape _ (by omega))
                          (by omega) (by omega), hout]

theorem serStr_parse (s : String) (f : Nat) (rest : List Char) :
    ∃ out, parseVal (f + 1) (serStr s ++ rest) = some (Json.str out, rest) := by
  have hsh : serStr s ++ rest = '"' :: (escChars s.data ++ '"' :: rest) := by
    simp [serStr]
  obtain ⟨out, hout⟩ := escChars_parse s.data
    ((escChars s.data ++ '"' :: rest).length + 1) rest
    (by rw [List.length_append]; omega)
  refine ⟨⟨out⟩, ?_⟩
  rw [hsh]
  have hstep : parseVal (f + 1) ('"' :: (escChars s.data ++ '"' :: rest)) =
      (match parseStrF ((escChars s.data ++ '"' :: rest).length + 1)
          (escChars s.data ++ '"' :: rest) with
       | some (cs, r1) => some (Json.str ⟨cs⟩, r1)
       | none => none) := rfl
  rw [hstep, hout]

theorem parseVal_null_step (f : Nat) (rest : List Char) :
    parseVal (f + 1) ('n' :: 'u' :: 'l' :: 'l' :: rest) = some (Json.null, rest) := rfl

theorem parseVal_true_step (f : Nat) (rest : List Char) :
    parseVal (f + 1) ('t' :: 'r' :: 'u' :: 'e' :: rest) = some (Json.bool true, rest) := rfl

theorem parseVal_false_step (f : Nat) (rest : List Char) :
    parseVal (f + 1) ('f' :: 'a' :: 'l' :: 's' :: 'e' :: rest) =
      some (Json.bool false, rest) := rfl

theorem intChars_head (i : Int) :
    ∃ c r, intChars i = c :: r ∧ (c = '-' ∨ c.isDigit = true) := by
  unfold intChars
  by_cases hi : i < 0
  · rw [if_pos hi]
    exact ⟨'-', _, rfl, Or.inl rfl⟩
  · rw [if_neg hi]
    obtain ⟨c, T, hct, _⟩ := natCharsF_shape (i.natAbs + 1) i.natAbs (by omega)
    refine ⟨c, T, hct, Or.inr ?_⟩
    exact natCharsF_all_digit (i.natAbs + 1) i.natAbs c
      (by rw [hct]; exact List.mem_cons_self c T)

theorem serNum_head (m e : Int) :
    ∃ c r, serNum m e = c :: r ∧ (c = '-' ∨ c.isDigit = true) := by
  obtain ⟨c, r, hcr, hc⟩ := intChars_head m
  unfold serNum
  by_cases he : e = 0
  · rw [if_pos he]
    exact ⟨c, r, hcr, hc⟩
  · rw [if_neg he, hcr]
    exact ⟨c, r ++ 'e' :: intChars e, rfl, hc⟩

theorem digit_or_dash_ne (c : Char) (hc : c = '-' ∨ c.isDigit = true) :
    ∀ x : Char, x.isDigit = false → ('-' : Char) ≠ x → c ≠ x := by
  intro x hx hdx h
  subst h
  rcases hc with h1 | h1
  · exact hdx h1.symm
  · rw [h1] at hx
    cases hx

theorem parseVal_num_dispatch (f : Nat) (c : Char) (r : List Char)
    (hc : c = '-' ∨ c.isDigit = true) :
    parseVal (f + 1) (c :: r) = parseNumber (c :: r) := by
  have hne := digit_or_dash_ne c hc
  simp only [parseVal]
  rw [if_neg (hne '"' (by decide) (by decide)),
    if_neg (hne '\x7b' (by decide) (by decide)),
    if_neg (hne '[' (by decide) (by decide)),
    if_neg (hne 't' (by decide) (by decide)),
    if_neg (hne 'f' (by decide) (by decide)),
    if_neg (hne 'n' (by decide) (by decide)),
    if_pos hc]

theorem digit_or_dash_head_ok (c : Char) (hc : c = '-' ∨ c.isDigit = true) :
    isJsonWs c = false ∧ c ≠ ']' := by
  have hne := digit_or_dash_ne c hc
  refine ⟨?_, hne ']' (by decide) (by decide)⟩
  unfold isJsonWs
  simp only [Bool.or_eq_false_iff, decide_eq_false_iff_not]
  exact ⟨⟨⟨hne ' ' (by decide) (by decide), hne '\t' (by decide) (by decide)⟩,
    hne '\n' (by decide) (by decide)⟩, hne '\x0d' (by decide) (by decide)⟩

theorem serJson_head_good : ∀ j : Json,
    ∃ c r, serJson j = c :: r ∧ isJsonWs c = false ∧ c ≠ ']' := by
  intro j
  cases j with
  | null => exact ⟨'n', ['u', 'l', 'l'], rfl, by decide, by decide⟩
  | bool b =>
    cases b with
    | false => exact ⟨'f', ['a', 'l', 's', 'e'], rfl, by decide, by decide⟩
    | true => exact ⟨'t', ['r', 'u', 'e'], rfl, by decide, by decide⟩
  | num m e =>
    obtain ⟨c, r, hcr, hc⟩ := serNum_head m e
    obtain ⟨h1, h2⟩ := digit_or_dash_head_ok c hc
    exact ⟨c, r, hcr, h1, h2⟩
  | str s => exact ⟨'"', escChars s.data ++ ['"'], rfl, by decide, by decide⟩
  | arr es => exact ⟨'[', serList es ++ [']'], rfl, by decide, by decide⟩
  | obj ms => exact ⟨'\x7b', serMembers ms ++ ['\x7d'], rfl, by decide, by decide⟩

theorem skipWs_cons_of (c : Char) (r : List Char) (h : isJsonWs c = false) :
    skipWs (c :: r) = c :: r := by
  simp [skipWs, List.dropWhile_cons, h]

theorem serList_head_good (es : List Json) (h : es ≠ []) :
    ∃ c r, serList es = c :: r ∧ isJsonWs c = false ∧ c ≠ ']' := by
  cases es with
  | nil => exact absurd rfl h
  | cons j t =>
    cases t with
    | nil => exact serJson_head_good j
    | cons j2 t2 =>
      obtain ⟨c, r, hcr, h1, h2⟩ := serJson_head_good j
      refine ⟨c, r ++ ',' :: ' ' :: serList (j2 :: t2), ?_, h1, h2⟩
      show serJson j ++ ',' :: ' ' :: serList (j2 :: t2) = _
      rw [hcr]
      rfl

theorem serMembers_head (ms : List (String × Json)) (h : ms ≠ []) :
    ∃ r, serMembers ms = '"' :: r := by
  cases ms with
  | nil => exact absurd rfl h
  | cons kv t =>
    obtain ⟨k, v⟩ := kv
    cases t with
    | nil => exact ⟨(escChars k.data ++ ['"']) ++ ':' :: ' ' :: serJson v, rfl⟩
    | cons kv2 t2 =>
      exact ⟨((escChars k.data ++ ['"']) ++ ':' :: ' ' :: serJson v) ++
        ',' :: ' ' :: serMembers (kv2 :: t2), rfl⟩

/-- The parse-back property for one serialized value: with enough fuel,
parseVal consumes exactly the serialized text and leaves the separator
tail untouched. -/
def parseOkVal (j : Json) : Prop :=
  ∀ f rest, 3 * (serJson j).length ≤ f → sepRest rest →
    ∃ v, parseVal f (serJson j ++ rest) = some (v, rest)

/-- The parse-back property for a serialized member list followed by the
closing brace. -/
def parseOkObjTail (ms : List (String × Json)) : Prop :=
  ∀ f rest, ms ≠ [] → 3 * (serMembers ms).length + 1 ≤ f → sepRest rest →
    ∃ os, parseObjLoopF f (serMembers ms ++ '\x7d' :: rest) = some (os, rest)

/-- The parse-back property for a serialized element list followed by the
closing bracket. -/
def parseOkArrTail (es : List Json) : Prop :=
  ∀ f rest, es ≠ [] → 3 * (serList es).length + 1 ≤ f → sepRest rest →
    ∃ vs, parseArrLoopF f (serList es ++ ']' :: rest) = some (vs, rest)

/-- Every serialized JSON value scans back as one value. -/
theorem serJson_parse (j : Json) : parseOkVal j := by
  refine serJson.induct parseOkVal parseOkObjTail parseOkArrTail
    ?_ ?_ ?_ ?_ ?_ ?_ ?_ ?_ ?_ ?_ ?_ ?_ ?_ j
  · intro f rest hf hrest
    have h4 : (serJson Json.null).length = 4 := rfl
    rw [h4] at hf
    rcases f with _ | f'
    · omega
    · exact ⟨Json.null, parseVal_null_step f' rest⟩
  · intro f rest hf hrest
    have h4 : (serJson (Json.bool true)).length = 4 := rfl
    rw [h4] at hf
    rcases f with _ | f'
    · omega
    · exact ⟨Json.bool true, parseVal_true_step f' rest⟩
  · intro f rest hf hrest
    have h5 : (serJson (Json.bool false)).length = 5 := rfl
    rw [h5] at hf
    rcases f with _ | f'
    · omega
    · exact ⟨Json.bool false, parseVal_false_step f' rest⟩
  · intro m e f rest hf hrest
    obtain ⟨c, r, hcr, hc⟩ := serNum_head m e
    have hlen : 1 ≤ (serNum m e).length := by
      rw [hcr]
      simp
    have hf' : 3 * (serNum m e).length ≤ f := hf
    rcases f with _ | f'
    · omega
    · obtain ⟨jv, hj⟩ := serNum_parse m e rest hrest
      refine ⟨jv, ?_⟩
      show parseVal (f' + 1) (serNum m e ++ rest) = some (jv, rest)
      rw [hcr, List.cons_append, parseVal_num_dispatch f' c (r ++ rest) hc,
        ← List.cons_append, ← hcr]
      exact hj
  · intro s f rest hf hrest
    obtain ⟨c, r, hcr, _, _⟩ := serJson_head_good (Json.str s)
    have h1 : 1 ≤ (serJson (Json.str s)).length := by
      rw [hcr]
      simp
    rcases f with _ | f'
    · omega
    · obtain ⟨out, hout⟩ := serStr_parse s f' rest
      exact ⟨Json.str out, hout⟩
  · intro es ih f rest hf hrest
    have hlen : (serJson (Json.arr es)).length = (serList es).length + 2 := by
      rw [serJson_arr_eq]
      simp
    rw [hlen] at hf
    rcases f with _ | f'
    · omega
    rcases f' with _ | f''
    · omega
    have hsplit : serJson (Json.arr es) ++ rest = '[' :: (serList es ++ ']' :: rest) := by
      rw [serJson_arr_eq]
      simp
    rw [hsplit]
    have hstep : parseVal (f'' + 1 + 1) ('[' :: (serList es ++ ']' :: rest)) =
        (match parseArrF (f'' + 1) (skipWs (serList es ++ ']' :: rest)) with
         | some (es2, r2) => some (Json.arr es2, r2)
         | none => none) := rfl
    rw [hstep]
    by_cases hes : es = []
    · subst hes
      rw [show (serList [] ++ ']' :: rest : List Char) = ']' :: rest from rfl,
        skipWs_cons_of ']' rest (by decide),
        show parseArrF (f'' + 1) (']' :: rest) = some ([], rest) from rfl]
      exact ⟨Json.arr [], rfl⟩
    · obtain ⟨c, r, hcr, hws, hcne⟩ := serList_head_good es hes
      rw [hcr, List.cons_append, skipWs_cons_of c _ hws]
      have hstep2 : parseArrF (f'' + 1) (c :: (r ++ ']' :: rest)) =
          if c = ']' then some ([], r ++ ']' :: rest)
          else parseArrLoopF f'' (c :: (r ++ ']' :: rest)) := rfl
      rw [hstep2, if_neg hcne, ← List.cons_append, ← hcr]
      obtain ⟨vs, hvs⟩ := ih f'' rest hes (by omega) hrest
      rw [hvs]
      exact ⟨Json.arr vs, rfl⟩
  · intro ms ih f rest hf hrest
    have hlen : (serJson (Json.obj ms)).length = (serMembers ms).length + 2 := by
      rw [show serJson (Json.obj ms) = '\x7b' :: (serMembers ms ++ ['\x7d']) from rfl]
      simp
    rw [hlen] at hf
    rcases f with _ | f'
    · omega
    rcases f' with _ | f''
    · omega
    have hsplit : serJson (Json.obj ms) ++ rest =
        '\x7b' :: (serMembers ms ++ '\x7d' :: rest) := by
      rw [show serJson (Json.obj ms) = '\x7b' :: (serMembers ms ++ ['\x7d']) from rfl]
      simp
    rw [hsplit]
    have hstep : parseVal (f'' + 1 + 1) ('\x7b' :: (serMembers ms ++ '\x7d' :: rest)) =
        (match parseObjF (f'' + 1) (skipWs (serMembers ms ++ '\x7d' :: rest)) with
         | some (ms2, r2) => some (Json.obj (dictify ms2), r2)
         | none => none) := rfl
    rw [hstep]
    by_cases hms : ms = []
    · subst hms
      rw [show (serMembers [] ++ '\x7d' :: rest : List Char) = '\x7d' :: rest from rfl,
        skipWs_cons_of '\x7d' rest (by decide),
        show parseObjF (f'' + 1) ('\x7d' :: rest) = some ([], rest) from rfl]
      exact ⟨Json.obj (dictify []), rfl⟩
    · obtain ⟨r, hr⟩ := serMembers_head ms hms
      rw [hr, List.cons_append, skipWs_cons_of '"' _ (by decide)]
      have hstep2 : parseObjF (f'' + 1) ('"' :: (r ++ '\x7d' :: rest)) =
          parseObjLoopF f'' ('"' :: (r ++ '\x7d' :: rest)) := rfl
      rw [hstep2, ← List.cons_append, ← hr]
      obtain ⟨os, hos⟩ := ih f'' rest hms (by omega) hrest
      rw [hos]
      exact ⟨Json.obj (dictify os), rfl⟩
  · intro f rest hne hf hrest
    exact absurd rfl hne
  · intro j ihj f rest hne hf hrest
    have hlen : (serList [j]).length = (serJson j).length := rfl
    rw [hlen] at hf
    rcases f with _ | f'
    · omega
    · obtain ⟨v, hv⟩ := ihj f' (']' :: rest) (by omega)
        (Or.inr ⟨']', rest, rfl, Or.inr (Or.inl rfl)⟩)
      simp only [parseArrLoopF]
      rw [show (serList [j] ++ ']' :: rest : List Char) = serJson j ++ ']' :: rest from rfl]
      simp only [hv]
      rw [skipWs_cons_of ']' rest (by decide)]
      exact ⟨[v], rfl⟩
  · intro j tl htl ihj ihtl f rest hne hf hrest
    have htl' : tl ≠ [] := htl
    have hser : serList (j :: tl) = serJson j ++ ',' :: ' ' :: serList tl := by
      cases tl with
      | nil => exact absurd rfl htl'
      | cons a b => rfl
    rcases f with _ | f'
    · omega
    · rw [hser] at hf
      simp only [List.length_append, List.length_cons] at hf
      obtain ⟨v, hv⟩ := ihj f' (',' :: ' ' :: (serList tl ++ ']' :: rest)) (by omega)
        (Or.inr ⟨',', _, rfl, Or.inl rfl⟩)
      have hsk : skipWs (' ' :: (serList tl ++ ']' :: rest)) = serList tl ++ ']' :: rest := by
        obtain ⟨c, r, hcr, hws, _⟩ := serList_head_good tl htl'
        have h0 : skipWs (' ' :: (serList tl ++ ']' :: rest)) =
            skipWs (serList tl ++ ']' :: rest) := rfl
        rw [h0, hcr, List.cons_append]
        exact skipWs_cons_of c _ hws
      obtain ⟨vs, hvs⟩ := ihtl f' rest htl' (by omega) hrest
      have hsplit : serList (j :: tl) ++ ']' :: rest =
          serJson j ++ (',' :: ' ' :: (serList tl ++ ']' :: rest)) := by
        rw [hser]
        simp
      simp only [parseArrLoopF]
      rw [hsplit]
      simp only [hv]
      rw [skipWs_cons_of ',' (' ' :: (serList tl ++ ']' :: rest)) (by decide)]
      simp only [hsk, hvs]
      exact ⟨v :: vs, rfl⟩
  · intro f rest hne hf hrest
    exact absurd rfl hne
  · intro k v ihv f rest hne hf hrest
    rcases f with _ | f'
    · omega
    · have hser : serMembers [(k, v)] = serStr k ++ ':' :: ' ' :: serJson v := rfl
      rw [hser] at hf
      simp only [serStr, List.length_append, List.length_cons, List.length_nil] at hf
      have hsplit : serMembers [(k, v)] ++ '\x7d' :: rest =
          '"' :: (escChars k.data ++ '"' :: (':' :: ' ' :: (serJson v ++ '\x7d' :: rest))) := by
        rw [hser]
        simp [serStr]
      obtain ⟨kout, hk⟩ := escChars_parse k.data
        ((escChars k.data ++ '"' :: (':' :: ' ' ::
          (serJson v ++ '\x7d' :: rest))).length + 1)
        (':' :: ' ' :: (serJson v ++ '\x7d' :: rest))
        (by rw [List.length_append]; omega)
      obtain ⟨vv, hvv⟩ := ihv f' ('\x7d' :: rest) (by omega)
        (Or.inr ⟨'\x7d', rest, rfl, Or.inr (Or.inr rfl)⟩)
      have hskip : skipWs (' ' :: (serJson v ++ '\x7d' :: rest)) =
          serJson v ++ '\x7d' :: rest := by
        obtain ⟨c, r, hcr, hws, _⟩ := serJson_head_good v
        have h0 : skipWs (' ' :: (serJson v ++ '\x7d' :: rest)) =
            skipWs (serJson v ++ '\x7d' :: rest) := rfl
        rw [h0, hcr, List.cons_append]
        exact skipWs_cons_of c _ hws
      rw [hsplit]
      simp only [parseObjLoopF]
      simp only [hk]
      rw [skipWs_cons_of ':' (' ' :: (serJson v ++ '\x7d' :: rest)) (by decide)]
      simp only [hskip, hvv]
      rw [skipWs_cons_of '\x7d' rest (by decide)]
      exact ⟨[(⟨kout⟩, vv)], rfl⟩
  · intro k v tl htl ihv ihtl f rest hne hf hrest
    have htl' : tl ≠ [] := htl
    rcases f with _ | f'
    · omega
    · have hser : serMembers ((k, v) :: tl) =
          (serStr k ++ ':' :: ' ' :: serJson v) ++ ',' :: ' ' :: serMembers tl := by
        cases tl with
        | nil => exact absurd rfl htl'
        | cons a b => rfl
      rw [hser] at hf
      simp only [serStr, List.length_append, List.length_cons, List.length_nil] at hf
      have hsplit : serMembers ((k, v) :: tl) ++ '\x7d' :: rest =
          '"' :: (escChars k.data ++ '"' :: (':' :: ' ' ::
            (serJson v ++ ',' :: ' ' :: (serMembers tl ++ '\x7d' :: rest)))) := by
        rw [hser]
        simp [serStr]
      obtain ⟨kout, hk⟩ := escChars_parse k.data
        ((escChars k.data ++ '"' :: (':' :: ' ' ::
          (serJson v ++ ',' :: ' ' :: (serMembers tl ++ '\x7d' :: rest)))).length + 1)
        (':' :: ' ' :: (serJson v ++ ',' :: ' ' :: (serMembers tl ++ '\x7d' :: rest)))
        (by rw [List.length_append]; omega)
      obtain ⟨vv, hvv⟩ := ihv f'
        (',' :: ' ' :: (serMembers tl ++ '\x7d' :: rest)) (by omega)
        (Or.inr ⟨',', _, rfl, Or.inl rfl⟩)
      have hskip : skipWs (' ' ::
          (serJson v ++ ',' :: ' ' :: (serMembers tl ++ '\x7d' :: rest))) =
          serJson v ++ ',' :: ' ' :: (serMembers tl ++ '\x7d' :: rest) := by
        obtain ⟨c, r, hcr, hws, _⟩ := serJson_head_good v
        have h0 : skipWs (' ' ::
            (serJson v ++ ',' :: ' ' :: (serMembers tl ++ '\x7d' :: rest))) =
            skipWs (serJson v ++ ',' :: ' ' :: (serMembers tl ++ '\x7d' :: rest)) := rfl
        rw [h0, hcr, List.cons_append]
        exact skipWs_cons_of c _ hws
      have hskip2 : skipWs (' ' :: (serMembers tl ++ '\x7d' :: rest)) =
          serMembers tl ++ '\x7d' :: rest := by
        obtain ⟨r, hr⟩ := serMembers_head tl htl'
        have h0 : skipWs (' ' :: (serMembers tl ++ '\x7d' :: rest)) =
            skipWs (serMembers tl ++ '\x7d' :: rest) := rfl
        rw [h0, hr, List.cons_append]
        exact skipWs_cons_of '"' _ (by decide)
      obtain ⟨os, hos⟩ := ihtl f' rest htl' (by omega) hrest
      rw [hsplit]
      simp only [parseObjLoopF]
      simp only [hk]
      rw [skipWs_cons_of ':' _ (by decide)]
      simp only [hskip, hvv]
      rw [skipWs_cons_of ',' _ (by decide)]
      simp only [hskip2, hos]
      exact ⟨(⟨kout⟩, vv) :: os, rfl⟩

/-- The serialized form of an array value is accepted by jsonParse and
yields an array. -/
theorem jsonParse_serArr (es : List Json) :
    ∃ vs, jsonParse (serJson (Json.arr es)) = some (Json.arr vs) := by
  obtain ⟨v, hv⟩ := serJson_parse (Json.arr es)
    (4 * (serJson (Json.arr es)).length + 4) [] (by omega) (Or.inl rfl)
  rw [List.append_nil] at hv
  have hv' := hv
  rw [serJson_arr_eq] at hv'
  obtain ⟨vs, hvs⟩ := parseVal_bracket_shape _ _ _ _ hv'
  subst hvs
  refine ⟨vs, ?_⟩
  unfold jsonParse
  rw [show skipWs (serJson (Json.arr es)) = serJson (Json.arr es) from by
    rw [serJson_arr_eq]
    exact skipWs_cons_of '[' _ (by decide)]
  simp only [hv]
  rfl

/-- C2: wrapping the serialized form of a JSON array in a Markdown code
fence, with or without the json language tag, does not change the outcome
of extraction: the unfenced serialization and both fenced responses all
extract to the same array. -/
theorem fenced_wrapping_preserves_extraction (es : List Json) :
    ∃ l, extractPipeline (serString (Json.arr es)) = ExtractResult.ok l ∧
      extractPipeline (fencedWrap "json" (serString (Json.arr es))) = ExtractResult.ok l ∧
      extractPipeline (fencedWrap "" (serString (Json.arr es))) = ExtractResult.ok l := by
  obtain ⟨h0, h1, h2⟩ := cleanData_serArr es
  obtain ⟨vs, hvs⟩ := jsonParse_serArr es
  have hok : ∀ r : String, extractCore (serJson (Json.arr es)) r = ExtractResult.ok vs := by
    intro r
    unfold extractCore
    have ht : tryParseArray (serJson (Json.arr es)) = some vs := by
      unfold tryParseArray
      rw [hvs]
    rw [ht]
  refine ⟨vs, ?_, ?_, ?_⟩
  · show extractCore (cleanData (serString (Json.arr es))) _ = _
    rw [h0]
    exact hok _
  · show extractCore (cleanData (fencedWrap "json" (serString (Json.arr es)))) _ = _
    rw [h1]
    exact hok _
  · show extractCore (cleanData (fencedWrap "" (serString (Json.arr es)))) _ = _
    rw [h2]
    exact hok _
